import Mathlib

/-!
# dynamo-db-todos: the HTTP handlers and the store adapter of `main.go`

A shallow embedding of `main.go`.

* A Go `string` is a sequence of bytes (`GoString`), not necessarily valid UTF-8;
  `runes` is the sequence of runes a Go `for _, r := range s` loop visits.
* The handlers talk to DynamoDB, to Bedrock, to the clock and to the UUID generator.
  Those are the fields of `World`: each one gives the answer of the outside world to a
  request.  A handler returns what it did with the `http.ResponseWriter` together with
  the list of `Event`s (calls that left the handler) in the order they happened.
* Library functions (`utf8`, `strings`, `strconv`, `html/template`) are transcribed from
  the Go standard library, loops as recursions with a bound on the number of steps.
  `unicode.IsPrint`, `sort.Slice`, the JSON and attribute-value codecs are fields of
  `World` as well: the theorems hold for whatever they compute (for `sort.Slice`, under
  its documented contract).
* The definitions come first, then the theorems; the claims of the specification are
  the theorems whose comment starts with `C1` to `C10`.
-/

namespace DynamoTodos

/-! ## Go strings -/

/-- A Go string: its bytes, each a natural number below 256. -/
abbrev GoString := List Nat

/-- The bytes `utf8.AppendRune` writes for the rune `r`. -/
def encodeRune (r : Nat) : GoString :=
  if r < 0x80 then [r]
  else if r < 0x800 then [0xC0 + r / 64, 0x80 + r % 64]
  else if (0xD800 ≤ r ∧ r ≤ 0xDFFF) ∨ 0x10FFFF < r then [0xEF, 0xBF, 0xBD]
  else if r < 0x10000 then [0xE0 + r / 4096, 0x80 + r / 64 % 64, 0x80 + r % 64]
  else [0xF0 + r / 262144, 0x80 + r / 4096 % 64, 0x80 + r / 64 % 64, 0x80 + r % 64]

/-- The bytes of a string literal of the Go source (Go source text is UTF-8). -/
def goStr (s : String) : GoString :=
  s.data.flatMap fun c => encodeRune c.toNat

/-- The rune `utf8.RuneError`, U+FFFD. -/
def RuneError : Nat := 0xFFFD

/-- The table `first` of package `utf8`: information about the first byte of an encoding.
`0xF0` is an ASCII byte, `0xF1` an invalid first byte; otherwise the low three bits are
the length of the encoding and the high four bits index `acceptRanges`. -/
def first (b : Nat) : Nat :=
  if b < 0x80 then 0xF0
  else if b < 0xC2 then 0xF1
  else if b < 0xE0 then 0x02
  else if b = 0xE0 then 0x13
  else if b < 0xED then 0x03
  else if b = 0xED then 0x23
  else if b < 0xF0 then 0x03
  else if b = 0xF0 then 0x34
  else if b < 0xF4 then 0x04
  else if b = 0xF4 then 0x44
  else 0xF1

/-- The table `acceptRanges` of package `utf8`: the range allowed for the second byte. -/
def acceptRanges : Nat → Nat × Nat
  | 0 => (0x80, 0xBF)
  | 1 => (0xA0, 0xBF)
  | 2 => (0x80, 0x9F)
  | 3 => (0x90, 0xBF)
  | _ => (0x80, 0x8F)

/-- The function `utf8.DecodeRuneInString`: the first rune of `s` and its width in bytes.
An invalid or short encoding is `RuneError` of width 1; the empty string gives width 0. -/
def DecodeRuneInString (s : GoString) : Nat × Nat :=
  match s with
  | [] => (RuneError, 0)
  | s0 :: rest =>
    let x := first s0
    if 0xF0 ≤ x then
      (if x % 2 = 0 then s0 else RuneError, 1)
    else
      let sz := x % 8
      let accept := acceptRanges (x / 16)
      if s.length < sz then (RuneError, 1)
      else
        let s1 := rest.getD 0 0
        if s1 < accept.1 ∨ accept.2 < s1 then (RuneError, 1)
        else if sz ≤ 2 then (s0 % 32 * 64 + s1 % 64, 2)
        else
          let s2 := rest.getD 1 0
          if s2 < 0x80 ∨ 0xBF < s2 then (RuneError, 1)
          else if sz ≤ 3 then (s0 % 16 * 4096 + s1 % 64 * 64 + s2 % 64, 3)
          else
            let s3 := rest.getD 2 0
            if s3 < 0x80 ∨ 0xBF < s3 then (RuneError, 1)
            else (s0 % 8 * 262144 + s1 % 64 * 4096 + s2 % 64 * 64 + s3 % 64, 4)

/-- The runes of `s` from its first `fuel` decoding steps. -/
def runesFuel : Nat → GoString → List Nat
  | 0, _ => []
  | _ + 1, [] => []
  | fuel + 1, b :: bs =>
    let d := DecodeRuneInString (b :: bs)
    d.1 :: runesFuel fuel ((b :: bs).drop d.2)

/-- The runes a Go loop `for _, r := range s` visits, in order.  Every step consumes at
least one byte, so `s.length` steps reach the end of the string. -/
def runes (s : GoString) : List Nat :=
  runesFuel s.length s

/-- The function `utf8.RuneCountInString`: the number of runes in `s`, where an invalid or
short encoding counts as one rune of width 1. -/
def RuneCountInString (s : GoString) : Nat :=
  (runes s).length

/-! ## Data model -/

/-- The Go struct `Todo`. -/
structure Todo where
  Id : GoString
  Text : GoString
  CreatedAtEpoch : Int
  CreatedAtFormatted : GoString
  deriving DecidableEq, Repr

/-- A DynamoDB attribute value: the members `S` (string) and `N` (number, as decimal text)
are the ones this program writes. -/
inductive AttributeValue where
  | S (value : GoString)
  | N (value : GoString)
  deriving DecidableEq, Repr

/-- A DynamoDB item or key: attribute names with their values. -/
abbrev Item := List (String × AttributeValue)

/-- The input of `dynamodb.Client.Scan`.  `ExclusiveStartKey` is the continuation token of
the previous page (absent on the first request). -/
structure ScanInput where
  TableName : GoString
  ExclusiveStartKey : Option Item
  deriving DecidableEq, Repr

/-- The output of `dynamodb.Client.Scan`: one page of items and, when the scan stopped
before the end of the table, the key to continue from. -/
structure ScanOutput where
  Items : List Item
  LastEvaluatedKey : Option Item
  deriving DecidableEq, Repr

/-- One result of the Titan text response. -/
structure TitanTextResult where
  TokenCount : Int
  OutputText : GoString
  CompletionReason : GoString
  deriving DecidableEq, Repr

/-- The Go struct `TitanTextResponse`. -/
structure TitanTextResponse where
  InputTextTokenCount : Int
  Results : List TitanTextResult
  deriving DecidableEq, Repr

/-- The Go struct `TitanTextRequest`; the two float parameters are kept as the decimal
constants of the source. -/
structure TitanTextRequest where
  InputText : GoString
  MaxTokenCount : Int
  StopSequences : List GoString
  Temperature : ℚ
  TopP : ℚ
  deriving DecidableEq

/-- The input of `bedrockruntime.Client.InvokeModel`. -/
structure InvokeModelInput where
  Body : GoString
  ModelId : GoString
  ContentType : GoString
  Accept : GoString
  deriving DecidableEq, Repr

/-- A call that leaves a handler, or a request sent to a backend. -/
inductive Event where
  | addTodo (text : GoString)
  | deleteTodo (id : GoString) (createdAtEpoch : Int)
  | getTodos
  | PutItem (tableName : GoString) (item : Item)
  | DeleteItem (tableName : GoString) (key : Item)
  | Scan (input : ScanInput)
  | InvokeModel (input : InvokeModelInput)
  deriving DecidableEq, Repr

/-- The package-level variables of `main.go` and the outside world of one request: what
each backend call, the clock and the UUID generator answer.  A Go `error` is the text
of its message; `none` stands for a nil error. -/
structure World where
  tableName : GoString
  bedrockModelName : GoString
  messageOfTheDay : GoString
  /-- The value of `uuid.New().String()`. -/
  newUUID : GoString
  /-- The value of `time.Now().Unix()`. -/
  now : Int
  /-- The value of `time.Unix(e, 0).Format("2006-01-02 15:04:05")` in the server zone. -/
  formatTime : Int → GoString
  /-- The predicate `unicode.IsPrint` (the Unicode tables behind it are not reproduced). -/
  IsPrint : Nat → Bool
  /-- The error of `dynamoClient.PutItem`. -/
  PutItem : GoString → Item → Option GoString
  /-- The error of `dynamoClient.DeleteItem`. -/
  DeleteItem : GoString → Item → Option GoString
  /-- The answer of `dynamoClient.Scan`. -/
  Scan : ScanInput → Except GoString ScanOutput
  /-- The result of `attributevalue.UnmarshalListOfMaps` into a `[]Todo`. -/
  UnmarshalListOfMaps : List Item → Except GoString (List Todo)
  /-- The library function `sort.Slice`, applied to a slice of todos and its `less`. -/
  sortSlice : List Todo → (Todo → Todo → Bool) → List Todo
  /-- The result of `json.Marshal` on the request. -/
  jsonMarshal : TitanTextRequest → Except GoString GoString
  /-- The answer of `bedrockClient.InvokeModel`: the body of the output. -/
  InvokeModel : InvokeModelInput → Except GoString GoString
  /-- The result of `json.Unmarshal` of a response body into a `TitanTextResponse`. -/
  jsonUnmarshal : GoString → Except GoString TitanTextResponse

/-- An incoming `*http.Request`: its method and `r.FormValue`. -/
structure Request where
  Method : String
  FormValue : String → GoString

/-- What a handler did with its `http.ResponseWriter`: a call of `http.Redirect`, a call of
`http.Error`, or (the list page) the bytes written by the template followed, when the
template failed, by a call of `http.Error` with that message and code. -/
inductive Response where
  | Redirect (url : GoString) (code : Nat)
  | Error (message : GoString) (code : Nat)
  | Page (body : GoString) (failure : Option (GoString × Nat))
  deriving DecidableEq, Repr

/-- The HTTP status code the client receives.  For a page, the first write of the template
sends status 200; a later `http.Error` cannot change it any more. -/
def Response.status : Response → Nat
  | .Redirect _ code => code
  | .Error _ code => code
  | .Page [] (some failure) => failure.2
  | .Page _ _ => 200

def StatusSeeOther : Nat := 303
def StatusBadRequest : Nat := 400
def StatusInternalServerError : Nat := 500
def MethodPost : String := "POST"

/-! ## The store adapter -/

/-- The decimal digits of a natural number, most significant first. -/
def decimalDigits (n : Nat) : GoString :=
  (Nat.toDigits 10 n).map Char.toNat

/-- The function `strconv.FormatInt(n, 10)`. -/
def FormatInt (n : Int) : GoString :=
  if n < 0 then 0x2D :: decimalDigits n.natAbs else decimalDigits n.natAbs

/-- The function `attributevalue.MarshalMap` on a `Todo`: one attribute per exported field,
the field `CreatedAtFormatted` left out (its tag is `dynamodbav:"-"`).  The encoder has no
error for a struct of two strings and an int64. -/
def MarshalMap (todo : Todo) : Except GoString Item :=
  .ok [("Id", .S todo.Id), ("Text", .S todo.Text),
       ("CreatedAtEpoch", .N (FormatInt todo.CreatedAtEpoch))]

/-- The function `addTodo`: its error and the events it caused. -/
def addTodo (w : World) (text : GoString) : Option GoString × List Event :=
  let todo : Todo :=
    { Id := w.newUUID, Text := text, CreatedAtEpoch := w.now, CreatedAtFormatted := [] }
  match MarshalMap todo with
  | .error err => (some err, [Event.addTodo text])
  | .ok item =>
    (w.PutItem w.tableName item, [Event.addTodo text, Event.PutItem w.tableName item])

/-- The function `deleteTodo`: its error and the events it caused. -/
def deleteTodo (w : World) (id : GoString) (createdAtEpoch : Int) :
    Option GoString × List Event :=
  let key : Item := [("Id", .S id), ("CreatedAtEpoch", .N (FormatInt createdAtEpoch))]
  (w.DeleteItem w.tableName key,
    [Event.deleteTodo id createdAtEpoch, Event.DeleteItem w.tableName key])

/-! ## The handler of `/add` -/

/-- The function `addHandler`. -/
def addHandler (w : World) (r : Request) : Response × List Event :=
  if r.Method ≠ MethodPost then
    (.Redirect (goStr "/") StatusSeeOther, [])
  else
    let text := r.FormValue "text"
    if text = [] then
      (.Redirect (goStr "/") StatusSeeOther, [])
    else if RuneCountInString text > 200 then
      (.Error (goStr "Todo text must be 200 characters or less.") StatusBadRequest, [])
    else if (runes text).any (fun c => !w.IsPrint c) then
      (.Error (goStr "Todo text contains non-printable characters.") StatusBadRequest, [])
    else
      match addTodo w text with
      | (some err, events) =>
        (.Error (goStr "failed to add todo: " ++ err) StatusInternalServerError, events)
      | (none, events) => (.Redirect (goStr "/") StatusSeeOther, events)

/-! ## The handler of `/generate` -/

/-- The predicate `unicode.IsSpace`: the Latin-1 cases of its switch, and beyond Latin-1
the table `unicode.White_Space`. -/
def IsSpace (r : Nat) : Bool :=
  if r ≤ 0xFF then
    r = 0x09 ∨ r = 0x0A ∨ r = 0x0B ∨ r = 0x0C ∨ r = 0x0D ∨ r = 0x20 ∨ r = 0x85 ∨ r = 0xA0
  else
    r = 0x1680 ∨ (0x2000 ≤ r ∧ r ≤ 0x200A) ∨ r = 0x2028 ∨ r = 0x2029 ∨ r = 0x202F
      ∨ r = 0x205F ∨ r = 0x3000

/-- The table `asciiSpace` of package `strings`. -/
def asciiSpace (c : Nat) : Bool :=
  c = 0x09 ∨ c = 0x0A ∨ c = 0x0B ∨ c = 0x0C ∨ c = 0x0D ∨ c = 0x20

/-- The function `utf8.RuneStart`: false exactly on a continuation byte. -/
def RuneStart (b : Nat) : Bool :=
  ¬ (0x80 ≤ b ∧ b < 0xC0)

/-- The loop of `utf8.DecodeLastRuneInString` that walks `start` down to `lim` looking for
the first byte of an encoding; `start` may end at `lim - 1`. -/
def lastRuneStart (s : GoString) (lim : Int) : Nat → Int → Int
  | 0, start => start
  | fuel + 1, start =>
    if start < lim then start
    else if RuneStart (s.getD start.toNat 0) then start
    else lastRuneStart s lim fuel (start - 1)

/-- The function `utf8.DecodeLastRuneInString`: the last rune of `s` and its width. -/
def DecodeLastRuneInString (s : GoString) : Nat × Nat :=
  let stop : Int := s.length
  if stop = 0 then (RuneError, 0)
  else
    let r := s.getD (s.length - 1) 0
    if r < 0x80 then (r, 1)
    else
      let lim : Int := if stop - 4 < 0 then 0 else stop - 4
      let start := lastRuneStart s lim 4 (stop - 2)
      let start := if start < 0 then 0 else start
      let d := DecodeRuneInString (s.drop start.toNat)
      if start + d.2 ≠ stop then (RuneError, 1) else d

/-- The function `indexFunc(s, unicode.IsSpace, false)` of package `strings`: the byte
index of the first rune that is not a space, `-1` when there is none.  The string argument
is the part not yet visited and `i` its offset. -/
def indexFuncNotSpace : Nat → GoString → Int → Int
  | 0, _, _ => -1
  | _ + 1, [], _ => -1
  | fuel + 1, b :: bs, i =>
    let d := DecodeRuneInString (b :: bs)
    if IsSpace d.1 = false then i
    else indexFuncNotSpace fuel ((b :: bs).drop d.2) (i + d.2)

/-- The function `strings.TrimLeftFunc(s, unicode.IsSpace)`. -/
def TrimLeftFunc (s : GoString) : GoString :=
  let i := indexFuncNotSpace s.length s 0
  if i = -1 then [] else s.drop i.toNat

/-- The function `lastIndexFunc(s, unicode.IsSpace, false)` of package `strings`: the
byte index of the last rune that is not a space, `-1` when there is none; `i` is the
loop variable, which starts at `len(s)`. -/
def lastIndexFuncNotSpace (s : GoString) : Nat → Nat → Int
  | 0, _ => -1
  | fuel + 1, i =>
    if i = 0 then -1
    else
      let d := DecodeLastRuneInString (s.take i)
      let i := i - d.2
      if IsSpace d.1 = false then i else lastIndexFuncNotSpace s fuel i

/-- The function `strings.TrimRightFunc(s, unicode.IsSpace)`. -/
def TrimRightFunc (s : GoString) : GoString :=
  let i := lastIndexFuncNotSpace s s.length s.length
  let i :=
    if 0 ≤ i ∧ 0x80 ≤ s.getD i.toNat 0 then i + (DecodeRuneInString (s.drop i.toNat)).2
    else i + 1
  s.take i.toNat

/-- The function `strings.TrimFunc(s, unicode.IsSpace)`. -/
def TrimFunc (s : GoString) : GoString :=
  TrimRightFunc (TrimLeftFunc s)

/-- The second loop of `strings.TrimSpace`, on the string already trimmed on the left:
ASCII spaces are dropped from the back; at a non-ASCII byte the rest is handed to
`TrimRightFunc`. -/
def trimSpaceRight : Nat → GoString → GoString
  | 0, s => s
  | fuel + 1, s =>
    if s = [] then []
    else
      let c := s.getD (s.length - 1) 0
      if 0x80 ≤ c then TrimRightFunc s
      else if asciiSpace c then trimSpaceRight fuel (s.take (s.length - 1))
      else s

/-- The function `strings.TrimSpace`: ASCII spaces are dropped from the front then from the
back; at the first non-ASCII byte the rest is handed to `TrimFunc`. -/
def TrimSpace : GoString → GoString
  | [] => []
  | c :: cs =>
    if 0x80 ≤ c then TrimFunc (c :: cs)
    else if asciiSpace c then TrimSpace cs
    else trimSpaceRight (c :: cs).length (c :: cs)

/-- The function `trimLeftByte` of package `strings`. -/
def trimLeftByte : GoString → Nat → GoString
  | [], _ => []
  | b :: bs, c => if b = c then trimLeftByte bs c else b :: bs

/-- The function `trimRightByte` of package `strings`. -/
def trimRightByte (s : GoString) (c : Nat) : GoString :=
  (trimLeftByte s.reverse c).reverse

/-- The function `strings.Trim(s, cutset)` for a cutset of one ASCII byte `c`, the only
kind `main.go` uses: Go then returns `trimLeftByte(trimRightByte(s, c), c)`. -/
def Trim (s : GoString) (c : Nat) : GoString :=
  trimLeftByte (trimRightByte s c) c

/-- The double-quote byte. -/
def quote : Nat := 0x22

/-- The request `generateHandler` builds. -/
def titanRequest : TitanTextRequest :=
  { InputText :=
      goStr "Generate a short, fake to-do list item. It must be a single sentence, not a list."
    MaxTokenCount := 50
    StopSequences := []
    Temperature := 9 / 10
    TopP := 1 }

/-- The function `generateHandler`. -/
def generateHandler (w : World) (r : Request) : Response × List Event :=
  if r.Method ≠ MethodPost then
    (.Redirect (goStr "/") StatusSeeOther, [])
  else
    match w.jsonMarshal titanRequest with
    | .error err =>
      (.Error (goStr "failed to marshal request: " ++ err) StatusInternalServerError, [])
    | .ok payload =>
      let input : InvokeModelInput :=
        { Body := payload, ModelId := w.bedrockModelName
          ContentType := goStr "application/json", Accept := goStr "application/json" }
      match w.InvokeModel input with
      | .error err =>
        (.Error (goStr "failed to invoke bedrock model: " ++ err) StatusInternalServerError,
          [Event.InvokeModel input])
      | .ok body =>
        match w.jsonUnmarshal body with
        | .error err =>
          (.Error (goStr "failed to unmarshal response: " ++ err) StatusInternalServerError,
            [Event.InvokeModel input])
        | .ok response =>
          match response.Results with
          | [] =>
            (.Error (goStr "empty response from bedrock") StatusInternalServerError,
              [Event.InvokeModel input])
          | result :: _ =>
            let generatedText := result.OutputText
            let generatedText := TrimSpace generatedText
            let generatedText := Trim generatedText quote
            match addTodo w generatedText with
            | (some err, events) =>
              (.Error (goStr "failed to add generated todo: " ++ err) StatusInternalServerError,
                Event.InvokeModel input :: events)
            | (none, events) =>
              (.Redirect (goStr "/") StatusSeeOther, Event.InvokeModel input :: events)

/-! ## The handler of `/delete` -/

/-- The two errors of package `strconv`. -/
inductive NumError where
  | ErrSyn
  | ErrRange
  deriving DecidableEq, Repr

/-- The loop of `strconv.ParseUint(s, 10, 64)` from the accumulator `n`: every byte must be
a decimal digit; the value saturates at `2^64 - 1` with `ErrRange` on overflow. -/
def parseUintLoop : GoString → Nat → Nat × Option NumError
  | [], n => (n, none)
  | c :: cs, n =>
    if 0x30 ≤ c ∧ c ≤ 0x39 then
      let d := c - 0x30
      if n ≥ (2 ^ 64 - 1) / 10 + 1 then (2 ^ 64 - 1, some .ErrRange)
      else
        let n := n * 10 % 2 ^ 64
        let n1 := (n + d) % 2 ^ 64
        if n1 < n ∨ n1 > 2 ^ 64 - 1 then (2 ^ 64 - 1, some .ErrRange)
        else parseUintLoop cs n1
    else (0, some .ErrSyn)

/-- The function `strconv.ParseUint(s, 10, 64)`. -/
def ParseUint (s : GoString) : Nat × Option NumError :=
  if s = [] then (0, some .ErrSyn) else parseUintLoop s 0

/-- The function `strconv.ParseInt(s, 10, 64)`: the value and the error. -/
def ParseInt (s : GoString) : Int × Option NumError :=
  match s with
  | [] => (0, some .ErrSyn)
  | c :: cs =>
    let neg := c = 0x2D
    let s := if c = 0x2B ∨ c = 0x2D then cs else c :: cs
    let (un, err) := ParseUint s
    if err = some .ErrSyn then (0, err)
    else
      let cutoff : Nat := 2 ^ 63
      if ¬ neg ∧ un ≥ cutoff then ((cutoff : Int) - 1, some .ErrRange)
      else if neg ∧ un > cutoff then (-(cutoff : Int), some .ErrRange)
      else if neg then (-(un : Int), none)
      else ((un : Int), none)

/-- The function `deleteHandler`. -/
def deleteHandler (w : World) (r : Request) : Response × List Event :=
  if r.Method ≠ MethodPost then
    (.Redirect (goStr "/") StatusSeeOther, [])
  else
    let id := r.FormValue "id"
    let createdAtEpochStr := r.FormValue "createdAtEpoch"
    match ParseInt createdAtEpochStr with
    | (_, some _) => (.Error (goStr "invalid createdAtEpoch") StatusBadRequest, [])
    | (createdAtEpoch, none) =>
      match deleteTodo w id createdAtEpoch with
      | (some err, events) =>
        (.Error (goStr "failed to delete todo: " ++ err) StatusInternalServerError, events)
      | (none, events) => (.Redirect (goStr "/") StatusSeeOther, events)

/-! ## Listing -/

/-- The function `getTodos`: the todos or the error, and the events it caused. -/
def getTodos (w : World) : Except GoString (List Todo) × List Event :=
  let input : ScanInput := { TableName := w.tableName, ExclusiveStartKey := none }
  match w.Scan input with
  | .error err => (.error err, [Event.getTodos, Event.Scan input])
  | .ok out =>
    match w.UnmarshalListOfMaps out.Items with
    | .error err => (.error err, [Event.getTodos, Event.Scan input])
    | .ok todos =>
      let todos := todos.map fun t =>
        { t with CreatedAtFormatted := w.formatTime t.CreatedAtEpoch }
      let todos := w.sortSlice todos fun a b => decide (a.CreatedAtEpoch > b.CreatedAtEpoch)
      (.ok todos, [Event.getTodos, Event.Scan input])

/-! ## Presentation: `html/template` and the list page -/

/-- A Go value as the template engine sees it through reflection. -/
inductive Value where
  | string (s : GoString)
  | int64 (n : Int)
  | bool (b : Bool)
  | slice (elems : List Value)
  | struct (fields : List (String × Value))

mutual
/-- The function `fmt.Sprint` on a value (the verb `%v`). -/
def Sprint : Value → GoString
  | .string s => s
  | .int64 n => FormatInt n
  | .bool b => if b then goStr "true" else goStr "false"
  | .slice elems => goStr "[" ++ SprintElems elems ++ goStr "]"
  | .struct fields => goStr "\x7b" ++ SprintFields fields ++ goStr "\x7d"
/-- The elements of a slice, separated by spaces. -/
def SprintElems : List Value → GoString
  | [] => []
  | [v] => Sprint v
  | v :: v2 :: vs => Sprint v ++ goStr " " ++ SprintElems (v2 :: vs)
/-- The fields of a struct, separated by spaces. -/
def SprintFields : List (String × Value) → GoString
  | [] => []
  | [(_, v)] => Sprint v
  | (_, v) :: f2 :: fs => Sprint v ++ goStr " " ++ SprintFields (f2 :: fs)
end

/-- The table `htmlReplacementTable` of `html/template`, byte by byte: the escaper of an
action in element content and in a quoted attribute value replaces these ASCII characters
and copies every other byte. -/
def htmlReplacement (b : Nat) : GoString :=
  if b = 0 then [0xEF, 0xBF, 0xBD]
  else if b = 0x22 then goStr "&#34;"
  else if b = 0x26 then goStr "&amp;"
  else if b = 0x27 then goStr "&#39;"
  else if b = 0x2B then goStr "&#43;"
  else if b = 0x3C then goStr "&lt;"
  else if b = 0x3E then goStr "&gt;"
  else [b]

/-- The escaper `html/template` inserts into each action of `indexTemplate`. -/
def htmlEscape (s : GoString) : GoString :=
  s.flatMap htmlReplacement

/-- A pipeline of `indexTemplate`: the dot, or a field of the dot. -/
inductive Pipe where
  | Dot
  | Field (name : String)
  deriving DecidableEq, Repr

/-- A node of a parsed template: text, `{{pipeline}}`, `{{if pipeline}} list {{end}}` and
`{{range pipeline}} list {{end}}`. -/
inductive Node where
  | Text (text : GoString)
  | Action (pipe : Pipe)
  | If (pipe : Pipe) (list : List Node)
  | Range (pipe : Pipe) (list : List Node)

/-- Evaluation of a pipeline at the dot (`evalField` of `text/template`): a field needs a
struct that has it. -/
def evalPipe (dot : Value) : Pipe → Except GoString Value
  | .Dot => .ok dot
  | .Field name =>
    match dot with
    | .struct fields =>
      match fields.lookup name with
      | some v => .ok v
      | none => .error (goStr "can't evaluate field " ++ goStr name)
    | _ => .error (goStr "can't evaluate field " ++ goStr name)

/-- The function `isTrue` of `text/template`: the truth of a value in an `if`. -/
def isTrue : Value → Bool
  | .string s => !s.isEmpty
  | .int64 n => n != 0
  | .bool b => b
  | .slice elems => !elems.isEmpty
  | .struct _ => true

mutual
/-- The function `walk` of `text/template` on one node: the bytes written to the writer
and the error that stopped the execution, if any.  A `range` over a slice runs its body
once for each element, the element as the dot, until an error; a `range` over a value that
cannot be iterated is an error.  (The position that Go puts in front of
the message of an execution error is left out.) -/
def walk (dot : Value) : Node → GoString × Option GoString
  | .Text text => (text, none)
  | .Action pipe =>
    match evalPipe dot pipe with
    | .error err => ([], some err)
    | .ok v => (htmlEscape (Sprint v), none)
  | .If pipe list =>
    match evalPipe dot pipe with
    | .error err => ([], some err)
    | .ok v => if isTrue v then walkList dot list else ([], none)
  | .Range pipe list =>
    match evalPipe dot pipe with
    | .error err => ([], some err)
    | .ok (.slice elems) =>
      elems.foldl
        (fun acc elem =>
          match acc with
          | (out, some err) => (out, some err)
          | (out, none) =>
            let r := walkList elem list
            (out ++ r.1, r.2))
        ([], none)
    | .ok v => ([], some (goStr "range can't iterate over " ++ Sprint v))
/-- The function `walk` on a list of nodes: it stops at the first error. -/
def walkList (dot : Value) : List Node → GoString × Option GoString
  | [] => ([], none)
  | n :: rest =>
    match walk dot n with
    | (out, some err) => (out, some err)
    | (out, none) =>
      let r := walkList dot rest
      (out ++ r.1, r.2)
end

/-- Text of `indexTemplate` from the start of the template to `{{if .MOTD}}`. -/
def textHead : GoString :=
  goStr (
    "\n" ++
    "<!DOCTYPE html>\n" ++
    "<html>\n" ++
    "<head>\n" ++
    "    <title>Todo List</title>\n" ++
    "    <style>\n" ++
    "        table \x7b\n" ++
    "            width: 100%;\n" ++
    "            border-collapse: collapse;\n" ++
    "        \x7d\n" ++
    "        th, td \x7b\n" ++
    "            border: 1px solid #dddddd;\n" ++
    "            text-align: left;\n" ++
    "            padding: 8px;\n" ++
    "        \x7d\n" ++
    "        th \x7b\n" ++
    "            background-color: #f2f2f2;\n" ++
    "        \x7d\n" ++
    "        .actions \x7b\n" ++
    "            width: 1%;\n" ++
    "            white-space: nowrap;\n" ++
    "        \x7d\n" ++
    "    </style>\n" ++
    "</head>\n" ++
    "<body>\n" ++
    "    <h1>Todo List</h1>\n" ++
    "    ")

/-- Text of `indexTemplate` inside the `if`, before `{{.MOTD}}`. -/
def textMotdOpen : GoString :=
  goStr (
    "\n" ++
    "    <p><b>Message of the day:</b> ")

/-- Text of `indexTemplate` inside the `if`, after `{{.MOTD}}`. -/
def textMotdClose : GoString :=
  goStr (
    "</p>\n" ++
    "    ")

/-- Text of `indexTemplate` from the `{{end}}` of the `if` to `{{range .}}`: the add form,
the generate form and the head of the table. -/
def textForms : GoString :=
  goStr (
    "\n" ++
    "    <form action=\"/add\" method=\"post\" style=\"display:inline-block; margin-bottom: 20px;\">\n" ++
    "        <input type=\"text\" name=\"text\" size=\"50\">\n" ++
    "        <input type=\"submit\" value=\"Add\">\n" ++
    "    </form>\n" ++
    "    <form action=\"/generate\" method=\"post\" style=\"display:inline-block;\">\n" ++
    "        <input type=\"submit\" value=\"Generate\">\n" ++
    "    </form>\n" ++
    "    <table>\n" ++
    "        <thead>\n" ++
    "            <tr>\n" ++
    "                <th>Timestamp</th>\n" ++
    "                <th>Todo</th>\n" ++
    "                <th class=\"actions\">Actions</th>\n" ++
    "            </tr>\n" ++
    "        </thead>\n" ++
    "        <tbody>\n" ++
    "            ")

/-- Text of `indexTemplate` inside the `range`, before `{{.CreatedAtFormatted}}`. -/
def textRowOpen : GoString :=
  goStr (
    "\n" ++
    "            <tr>\n" ++
    "                <td>")

/-- Text of `indexTemplate` between `{{.CreatedAtFormatted}}` and `{{.Text}}`. -/
def textRowText : GoString :=
  goStr (
    "</td>\n" ++
    "                <td>")

/-- Text of `indexTemplate` between `{{.Text}}` and `{{.Id}}`. -/
def textRowId : GoString :=
  goStr (
    "</td>\n" ++
    "                <td class=\"actions\">\n" ++
    "                    <form action=\"/delete\" method=\"post\" style=\"display:inline;\">\n" ++
    "                        <input type=\"hidden\" name=\"id\" value=\"")

/-- Text of `indexTemplate` between `{{.Id}}` and `{{.CreatedAtEpoch}}`. -/
def textRowEpoch : GoString :=
  goStr (
    "\">\n" ++
    "                        <input type=\"hidden\" name=\"createdAtEpoch\" value=\"")

/-- Text of `indexTemplate` from `{{.CreatedAtEpoch}}` to the `{{end}}` of the `range`. -/
def textRowClose : GoString :=
  goStr (
    "\">\n" ++
    "                        <input type=\"submit\" value=\"Done\">\n" ++
    "                    </form>\n" ++
    "                </td>\n" ++
    "            </tr>\n" ++
    "            ")

/-- Text of `indexTemplate` after the `range`, to the end of the template. -/
def textFoot : GoString :=
  goStr (
    "\n" ++
    "        </tbody>\n" ++
    "    </table>\n" ++
    "</body>\n" ++
    "</html>\n")

/-- The body of the `range` of `indexTemplate`: one row of the table. -/
def rowNodes : List Node :=
  [ .Text textRowOpen, .Action (.Field "CreatedAtFormatted"),
    .Text textRowText, .Action (.Field "Text"),
    .Text textRowId, .Action (.Field "Id"),
    .Text textRowEpoch, .Action (.Field "CreatedAtEpoch"),
    .Text textRowClose ]

/-- The parse tree of the constant `indexTemplate` (what `template.New("index").Parse`
returns for it; the constant parses, so the error branch of the parse is not taken). -/
def indexTemplate : List Node :=
  [ .Text textHead,
    .If (.Field "MOTD") [.Text textMotdOpen, .Action (.Field "MOTD"), .Text textMotdClose],
    .Text textForms,
    .Range .Dot rowNodes,
    .Text textFoot ]

/-- The method `Execute` of a parsed template on `data`: the bytes written and the error. -/
def Execute (tmpl : List Node) (data : Value) : GoString × Option GoString :=
  walkList data tmpl

/-- A `Todo` as a template value: a struct with its four fields. -/
def Todo.toValue (t : Todo) : Value :=
  .struct [("Id", .string t.Id), ("Text", .string t.Text),
    ("CreatedAtEpoch", .int64 t.CreatedAtEpoch),
    ("CreatedAtFormatted", .string t.CreatedAtFormatted)]

/-- The anonymous struct `listHandler` passes to the template: `Todos` and `MOTD`. -/
def listData (todos : List Todo) (motd : GoString) : Value :=
  .struct [("Todos", .slice (todos.map Todo.toValue)), ("MOTD", .string motd)]

/-- The function `listHandler`. -/
def listHandler (w : World) (_r : Request) : Response × List Event :=
  match getTodos w with
  | (.error err, events) =>
    (.Error (goStr "failed to get todos: " ++ err) StatusInternalServerError, events)
  | (.ok todos, events) =>
    match Execute indexTemplate (listData todos w.messageOfTheDay) with
    | (body, some err) =>
      (.Page body (some (goStr "failed to execute template: " ++ err, StatusInternalServerError)),
        events)
    | (body, none) => (.Page body none, events)

/-- The data of `TestListHandlerTemplateRendering` in `main_test.go`. -/
def testData : Value :=
  .struct
    [ ("Todos", .slice [Todo.toValue
        { Id := goStr "1", Text := goStr "Test Todo", CreatedAtEpoch := 1678886400,
          CreatedAtFormatted := [] }]),
      ("MOTD", .string (goStr "Test MOTD")),
      ("IsDynamoDBConfigured", .bool true),
      ("IsBedrockConfigured", .bool true),
      ("Prefix", .string (goStr "/test/")) ]

/-! ## Definitions that follow the words of the specification -/

/-- A decimal digit. -/
def isDigit (c : Nat) : Bool :=
  0x30 ≤ c ∧ c ≤ 0x39

/-- The number that the digits `digits` add to `n`: `n` followed by `digits`, read in
base 10. -/
def decimalValueFrom (n : Nat) (digits : GoString) : Nat :=
  digits.foldl (fun a d => 10 * a + (d - 0x30)) n

/-- The integer, of any size, that `s` denotes in base 10: an optional sign `+` or `-`
followed by one or more decimal digits and nothing else. -/
def decimalInteger (s : GoString) : Option Int :=
  match s with
  | [] => none
  | c :: cs =>
    let digits := if c = 0x2B ∨ c = 0x2D then cs else c :: cs
    if digits ≠ [] ∧ digits.all isDigit then
      some (if c = 0x2D then -(decimalValueFrom 0 digits : Int) else decimalValueFrom 0 digits)
    else none

/-- The base-10 signed 64-bit integer that `s` denotes, if it denotes one: a decimal
integer from `-2^63` to `2^63 - 1`. -/
def int64Decimal (s : GoString) : Option Int :=
  (decimalInteger s).filter fun n => -(2 ^ 63 : Int) ≤ n ∧ n < 2 ^ 63

/-- The cleaning of quotes as the specification words it: one layer of surrounding double
quotes is removed if present, that is, at most one quote from each end. -/
def stripOneQuoteLayer (s : GoString) : GoString :=
  if 2 ≤ s.length ∧ s.head? = some quote ∧ s.getLast? = some quote then (s.drop 1).dropLast
  else s

/-- What Go asks of the `less` given to `sort.Slice`: a strict ordering that is transitive
and whose "neither is less" is transitive too. -/
structure StrictWeakOrder (less : Todo → Todo → Bool) : Prop where
  irrefl : ∀ a, less a a = false
  trans : ∀ a b c, less a b = true → less b c = true → less a c = true
  negTrans : ∀ a b c, less a b = false → less b c = false → less a c = false

/-- What `sort.Slice` promises: the result is a rearrangement of the slice, and for a `less`
as Go asks it, no later element is less than an earlier one.  (The sort is not stable; the
order among equal elements is not promised.) -/
structure SortSliceContract (sort : List Todo → (Todo → Todo → Bool) → List Todo) : Prop where
  perm : ∀ l less, (sort l less).Perm l
  sorted : ∀ l less, StrictWeakOrder less → (sort l less).Pairwise fun a b => less b a = false

/-- The complete scan as the specification words it: the adapter follows continuation
tokens until none remains and returns the items of all pages.  `fuel` bounds the number
of requests. -/
def scanFollowingTokens (w : World) : Nat → Option Item → Except GoString (List Item)
  | 0, _ => .error (goStr "too many pages")
  | fuel + 1, start =>
    match w.Scan { TableName := w.tableName, ExclusiveStartKey := start } with
    | .error err => .error err
    | .ok out =>
      match out.LastEvaluatedKey with
      | none => .ok out.Items
      | some key =>
        match scanFollowingTokens w fuel (some key) with
        | .error err => .error err
        | .ok items => .ok (out.Items ++ items)

/-! ## Worlds and requests for the examples -/

/-- The predicate `unicode.IsPrint` on Latin-1: the graphic ASCII characters with the
space, and U+00A1 to U+00FF without the soft hyphen.  Above Latin-1 this stand-in
answers `false`, where Go consults the Unicode tables. -/
def latin1IsPrint (r : Nat) : Bool :=
  (0x20 ≤ r ∧ r ≤ 0x7E) ∨ (0xA1 ≤ r ∧ r ≤ 0xFF ∧ r ≠ 0xAD)

/-- A decoder of one stored item for the examples: `Id` and `Text` of kind `S`,
`CreatedAtEpoch` of kind `N` holding an int64. -/
def exampleUnmarshal (item : Item) : Except GoString Todo :=
  match item.lookup "Id", item.lookup "Text", item.lookup "CreatedAtEpoch" with
  | some (.S id), some (.S text), some (.N n) =>
    match ParseInt n with
    | (epoch, none) =>
      .ok { Id := id, Text := text, CreatedAtEpoch := epoch, CreatedAtFormatted := [] }
    | (_, some _) => .error (goStr "unmarshal failed")
  | _, _, _ => .error (goStr "unmarshal failed")

/-- A sort for the examples: insertion sort by `less`. -/
def exampleSort (l : List Todo) (less : Todo → Todo → Bool) : List Todo :=
  l.insertionSort fun a b => less b a = false

/-- The stored item of a todo. -/
def Todo.toItem (t : Todo) : Item :=
  [("Id", .S t.Id), ("Text", .S t.Text), ("CreatedAtEpoch", .N (FormatInt t.CreatedAtEpoch))]

/-- Three stored todos of the examples. -/
def todoA : Todo :=
  { Id := goStr "a", Text := goStr "Buy milk.", CreatedAtEpoch := 1700000100,
    CreatedAtFormatted := [] }

def todoB : Todo :=
  { Id := goStr "b", Text := goStr "Walk the dog.", CreatedAtEpoch := 1700000300,
    CreatedAtFormatted := [] }

def todoC : Todo :=
  { Id := goStr "c", Text := goStr "Pay rent.", CreatedAtEpoch := 1700000200,
    CreatedAtFormatted := [] }

/-- A world for the examples.  Every backend call succeeds; the table holds `todoA`,
`todoC` and `todoB` and a scan answers with all three in one page; the model answers with
one result whose text is `outputText`. -/
def exampleWorld (outputText : GoString) : World :=
  { tableName := goStr "todos"
    bedrockModelName := goStr "amazon.titan-text-lite-v1"
    messageOfTheDay := goStr "Hello"
    newUUID := goStr "123e4567-e89b-12d3-a456-426614174000"
    now := 1700000000
    formatTime := fun e => goStr "t=" ++ FormatInt e
    IsPrint := latin1IsPrint
    PutItem := fun _ _ => none
    DeleteItem := fun _ _ => none
    Scan := fun _ =>
      .ok { Items := [todoA.toItem, todoC.toItem, todoB.toItem], LastEvaluatedKey := none }
    UnmarshalListOfMaps := fun items => items.mapM exampleUnmarshal
    sortSlice := exampleSort
    jsonMarshal := fun _ => .ok (goStr "request")
    InvokeModel := fun _ => .ok (goStr "response")
    jsonUnmarshal := fun _ =>
      .ok { InputTextTokenCount := 20
            Results := [{ TokenCount := 5, OutputText := outputText
                          CompletionReason := goStr "FINISH" }] } }

/-- The world of the examples with a store whose writes and deletes fail. -/
def failingStoreWorld : World :=
  { exampleWorld (goStr "Buy milk.") with
    PutItem := fun _ _ => some (goStr "throttled")
    DeleteItem := fun _ _ => some (goStr "throttled") }

/-- The world of the examples with a model that answers with no result. -/
def emptyResultsWorld : World :=
  { exampleWorld [] with
    jsonUnmarshal := fun _ => .ok { InputTextTokenCount := 20, Results := [] } }

/-- The world of the examples with a table that a scan returns in two pages: `todoA`
with a continuation key, then, from that key, `todoB`. -/
def pagedWorld : World :=
  { exampleWorld [] with
    Scan := fun input =>
      match input.ExclusiveStartKey with
      | none => .ok { Items := [todoA.toItem], LastEvaluatedKey := some [("Id", .S todoA.Id)] }
      | some _ => .ok { Items := [todoB.toItem], LastEvaluatedKey := none } }

/-- A request with the given method and form fields (an absent field is empty). -/
def request (method : String) (form : List (String × GoString)) : Request :=
  { Method := method, FormValue := fun key => (form.lookup key).getD [] }

/-! ## Theorems -/

/-! ### The loops of the library functions end before their bound

Each loop below is written with a bound on its number of steps.  A step consumes at least
one byte, so the bound in use (the length of the string) is never what ends the loop: a
larger bound gives the same result. -/

theorem first_size (b : Nat) : 0xF0 ≤ first b ∨ (2 ≤ first b % 8 ∧ first b % 8 ≤ 4) := by
  unfold first
  by_cases h1 : b < 0x80
  · rw [if_pos h1]; exact Or.inl (by norm_num)
  rw [if_neg h1]
  by_cases h2 : b < 0xC2
  · rw [if_pos h2]; exact Or.inl (by norm_num)
  rw [if_neg h2]
  by_cases h3 : b < 0xE0
  · rw [if_pos h3]; exact Or.inr (by norm_num)
  rw [if_neg h3]
  by_cases h4 : b = 0xE0
  · rw [if_pos h4]; exact Or.inr (by norm_num)
  rw [if_neg h4]
  by_cases h5 : b < 0xED
  · rw [if_pos h5]; exact Or.inr (by norm_num)
  rw [if_neg h5]
  by_cases h6 : b = 0xED
  · rw [if_pos h6]; exact Or.inr (by norm_num)
  rw [if_neg h6]
  by_cases h7 : b < 0xF0
  · rw [if_pos h7]; exact Or.inr (by norm_num)
  rw [if_neg h7]
  by_cases h8 : b = 0xF0
  · rw [if_pos h8]; exact Or.inr (by norm_num)
  rw [if_neg h8]
  by_cases h9 : b < 0xF4
  · rw [if_pos h9]; exact Or.inr (by norm_num)
  rw [if_neg h9]
  by_cases h10 : b = 0xF4
  · rw [if_pos h10]; exact Or.inr (by norm_num)
  rw [if_neg h10]
  exact Or.inl (by norm_num)

theorem DecodeRuneInString_width (b : Nat) (bs : GoString) :
    1 ≤ (DecodeRuneInString (b :: bs)).2 ∧ (DecodeRuneInString (b :: bs)).2 ≤ bs.length + 1 := by
  have hsz := first_size b
  unfold DecodeRuneInString
  simp only [List.length_cons]
  generalize first b = x at hsz ⊢
  split_ifs with h1 h2 h3 h4 h5 h6 h7
  all_goals (simp only; omega)

theorem lastRuneStart_le (s : GoString) (lim : Int) (fuel : Nat) (start : Int) :
    lastRuneStart s lim fuel start ≤ start := by
  induction fuel generalizing start with
  | zero => simp [lastRuneStart]
  | succ fuel ih =>
    simp only [lastRuneStart]
    split_ifs
    · exact le_refl _
    · exact le_refl _
    · have := ih (start - 1)
      omega

theorem DecodeLastRuneInString_width (s : GoString) (h : s ≠ []) :
    1 ≤ (DecodeLastRuneInString s).2 ∧ (DecodeLastRuneInString s).2 ≤ s.length := by
  have hpos : 0 < s.length := List.length_pos.mpr h
  have key : ∀ st : Int, 0 ≤ st → st < s.length →
      1 ≤ (if st + ((DecodeRuneInString (s.drop st.toNat)).2 : Int) ≠ (s.length : Int) then
          (RuneError, 1) else DecodeRuneInString (s.drop st.toNat)).2 ∧
        (if st + ((DecodeRuneInString (s.drop st.toNat)).2 : Int) ≠ (s.length : Int) then
          (RuneError, 1) else DecodeRuneInString (s.drop st.toNat)).2 ≤ s.length := by
    intro st h0 h1
    split_ifs with hc
    · exact ⟨le_refl _, hpos⟩
    · simp only [ne_eq, Decidable.not_not] at hc
      constructor <;> omega
  unfold DecodeLastRuneInString
  simp only
  rw [if_neg (by omega)]
  by_cases h1 : s.getD (s.length - 1) 0 < 0x80
  · rw [if_pos h1]
    exact ⟨le_refl _, hpos⟩
  · rw [if_neg h1]
    have hle := lastRuneStart_le s (if (s.length : Int) - 4 < 0 then 0 else (s.length : Int) - 4)
      4 ((s.length : Int) - 2)
    generalize (if (s.length : Int) - 4 < 0 then 0 else (s.length : Int) - 4) = lim at hle ⊢
    apply key
    · split_ifs <;> omega
    · split_ifs <;> omega

theorem indexFuncNotSpace_enough (fuel : Nat) (s : GoString) (i : Int) (h : s.length ≤ fuel) :
    indexFuncNotSpace fuel s i = indexFuncNotSpace s.length s i := by
  induction fuel using Nat.strong_induction_on generalizing s i with
  | _ fuel ih =>
    cases s with
    | nil => cases fuel <;> simp [indexFuncNotSpace]
    | cons b bs =>
      cases fuel with
      | zero => simp at h
      | succ fuel =>
        have hw := DecodeRuneInString_width b bs
        simp only [indexFuncNotSpace, List.length_cons]
        split_ifs
        · rfl
        · have hlen : ((b :: bs).drop (DecodeRuneInString (b :: bs)).2).length ≤ bs.length := by
            simp only [List.length_drop, List.length_cons]
            omega
          rw [ih fuel (Nat.lt_succ_self _) _ _ (by simp only [List.length_cons] at h; omega)]
          by_cases hb : bs.length = fuel
          · subst hb
            rw [ih bs.length (Nat.lt_succ_self _) _ _ hlen]
          · rw [ih bs.length (by simp only [List.length_cons] at h; omega) _ _ hlen]

theorem lastIndexFuncNotSpace_enough (s : GoString) (fuel i : Nat) (h : i ≤ fuel)
    (hi : i ≤ s.length) :
    lastIndexFuncNotSpace s fuel i = lastIndexFuncNotSpace s i i := by
  induction fuel using Nat.strong_induction_on generalizing i with
  | _ fuel ih =>
    cases fuel with
    | zero =>
      have : i = 0 := Nat.le_zero.mp h
      subst this
      rfl
    | succ fuel =>
      cases i with
      | zero => simp [lastIndexFuncNotSpace]
      | succ i =>
        have hne : s.take (i + 1) ≠ [] := by
          intro hc
          have := congrArg List.length hc
          simp only [List.length_take, List.length_nil] at this
          omega
        have hw := DecodeLastRuneInString_width (s.take (i + 1)) hne
        rw [List.length_take, Nat.min_eq_left hi] at hw
        simp only [lastIndexFuncNotSpace]
        rw [if_neg (Nat.succ_ne_zero i), if_neg (Nat.succ_ne_zero i)]
        by_cases hsp : IsSpace (DecodeLastRuneInString (s.take (i + 1))).1 = false
        · rw [if_pos hsp, if_pos hsp]
        · rw [if_neg hsp, if_neg hsp]
          rw [ih fuel (Nat.lt_succ_self _) _ (by omega) (by omega)]
          by_cases hb : i = fuel
          · subst hb
            rw [ih i (Nat.lt_succ_self _) _ (by omega) (by omega)]
          · rw [ih i (by omega) _ (by omega) (by omega)]

theorem trimSpaceRight_enough (fuel : Nat) (s : GoString) (h : s.length ≤ fuel) :
    trimSpaceRight fuel s = trimSpaceRight s.length s := by
  induction fuel using Nat.strong_induction_on generalizing s with
  | _ fuel ih =>
    cases fuel with
    | zero =>
      have : s = [] := List.length_eq_zero.mp (Nat.le_zero.mp h)
      subst this
      rfl
    | succ fuel =>
      by_cases he : s = []
      · subst he
        simp [trimSpaceRight]
      · have hpos : 0 < s.length := List.length_pos.mpr he
        obtain ⟨n, hn⟩ : ∃ n, s.length = n + 1 := ⟨s.length - 1, by omega⟩
        rw [hn]
        simp only [trimSpaceRight, he, if_false]
        split_ifs
        · rfl
        · have hlen : (s.take (s.length - 1)).length ≤ n := by
            simp only [List.length_take]
            omega
          rw [ih fuel (Nat.lt_succ_self _) _ (by simp only [List.length_take]; omega)]
          by_cases hb : n = fuel
          · subst hb
            rw [ih n (Nat.lt_succ_self _) _ hlen]
          · rw [ih n (by omega) _ hlen]
        · rfl

theorem runesFuel_enough (fuel : Nat) (s : GoString) (h : s.length ≤ fuel) :
    runesFuel fuel s = runesFuel s.length s := by
  induction fuel using Nat.strong_induction_on generalizing s with
  | _ fuel ih =>
    cases s with
    | nil => cases fuel <;> simp [runesFuel]
    | cons b bs =>
      cases fuel with
      | zero => simp at h
      | succ fuel =>
        have hw := DecodeRuneInString_width b bs
        simp only [runesFuel, List.length_cons]
        congr 1
        have hlen : ((b :: bs).drop (DecodeRuneInString (b :: bs)).2).length ≤ bs.length := by
          simp only [List.length_drop, List.length_cons]
          omega
        rw [ih fuel (Nat.lt_succ_self _) _ (by simp only [List.length_cons] at h; omega)]
        by_cases hb : bs.length = fuel
        · subst hb
          rw [ih bs.length (Nat.lt_succ_self _) _ hlen]
        · rw [ih bs.length (by simp only [List.length_cons] at h; omega) _ hlen]

/-- The runes of a non-empty string: the first rune, then the runes of what follows it. -/
theorem runes_cons (b : Nat) (bs : GoString) :
    runes (b :: bs) =
      (DecodeRuneInString (b :: bs)).1 ::
        runes ((b :: bs).drop (DecodeRuneInString (b :: bs)).2) := by
  have hw := DecodeRuneInString_width b bs
  unfold runes
  simp only [runesFuel, List.length_cons]
  congr 1
  apply runesFuel_enough
  simp only [List.length_drop, List.length_cons]
  omega

/-! ### UTF-8: the runes of a valid string are its scalar values -/

theorem first_ascii (b : Nat) (h : b < 0x80) : first b = 0xF0 := by
  unfold first
  rw [if_pos h]

theorem first_two (b : Nat) (h1 : 0xC2 ≤ b) (h2 : b < 0xE0) : first b = 0x02 := by
  interval_cases b <;> rfl

theorem first_three (b : Nat) (h1 : 0xE1 ≤ b) (h2 : b < 0xF0) (h3 : b ≠ 0xED) :
    first b = 0x03 := by
  interval_cases b <;> first | rfl | exact absurd rfl h3

theorem first_four (b : Nat) (h1 : 0xF1 ≤ b) (h2 : b < 0xF4) : first b = 0x04 := by
  interval_cases b <;> rfl

theorem DecodeRuneInString_two (s0 s1 x : Nat) (rest : GoString) (hx : first s0 = x)
    (hlt : x < 0xF0) (hsz : x % 8 = 2)
    (h1 : (acceptRanges (x / 16)).1 ≤ s1) (h2 : s1 ≤ (acceptRanges (x / 16)).2) :
    DecodeRuneInString (s0 :: s1 :: rest) = (s0 % 32 * 64 + s1 % 64, 2) := by
  have c1 : ¬ 0xF0 ≤ x := Nat.not_le.mpr hlt
  have c2 : ¬ (rest.length + 1 + 1 < 2) := by omega
  have c3 : ¬ (s1 < (acceptRanges (x / 16)).1 ∨ (acceptRanges (x / 16)).2 < s1) := by omega
  unfold DecodeRuneInString
  simp only [hx, hsz, List.getD_cons_zero, List.length_cons]
  rw [if_neg c1, if_neg c2, if_neg c3, if_pos (le_refl 2)]

theorem DecodeRuneInString_three (s0 s1 s2 x : Nat) (rest : GoString) (hx : first s0 = x)
    (hlt : x < 0xF0) (hsz : x % 8 = 3)
    (h1 : (acceptRanges (x / 16)).1 ≤ s1) (h2 : s1 ≤ (acceptRanges (x / 16)).2)
    (h3 : 0x80 ≤ s2) (h4 : s2 ≤ 0xBF) :
    DecodeRuneInString (s0 :: s1 :: s2 :: rest) =
      (s0 % 16 * 4096 + s1 % 64 * 64 + s2 % 64, 3) := by
  have c1 : ¬ 0xF0 ≤ x := Nat.not_le.mpr hlt
  have c2 : ¬ (rest.length + 1 + 1 + 1 < 3) := by omega
  have c3 : ¬ (s1 < (acceptRanges (x / 16)).1 ∨ (acceptRanges (x / 16)).2 < s1) := by omega
  have c4 : ¬ (3 ≤ 2) := by decide
  have c5 : ¬ (s2 < 0x80 ∨ 0xBF < s2) := by omega
  unfold DecodeRuneInString
  simp only [hx, hsz, List.getD_cons_zero, List.getD_cons_succ, List.length_cons]
  rw [if_neg c1, if_neg c2, if_neg c3, if_neg c4, if_neg c5, if_pos (le_refl 3)]

theorem DecodeRuneInString_four (s0 s1 s2 s3 x : Nat) (rest : GoString) (hx : first s0 = x)
    (hlt : x < 0xF0) (hsz : x % 8 = 4)
    (h1 : (acceptRanges (x / 16)).1 ≤ s1) (h2 : s1 ≤ (acceptRanges (x / 16)).2)
    (h3 : 0x80 ≤ s2) (h4 : s2 ≤ 0xBF) (h5 : 0x80 ≤ s3) (h6 : s3 ≤ 0xBF) :
    DecodeRuneInString (s0 :: s1 :: s2 :: s3 :: rest) =
      (s0 % 8 * 262144 + s1 % 64 * 4096 + s2 % 64 * 64 + s3 % 64, 4) := by
  have c1 : ¬ 0xF0 ≤ x := Nat.not_le.mpr hlt
  have c2 : ¬ (rest.length + 1 + 1 + 1 + 1 < 4) := by omega
  have c3 : ¬ (s1 < (acceptRanges (x / 16)).1 ∨ (acceptRanges (x / 16)).2 < s1) := by omega
  have c4 : ¬ (4 ≤ 2) := by decide
  have c5 : ¬ (s2 < 0x80 ∨ 0xBF < s2) := by omega
  have c6 : ¬ (4 ≤ 3) := by decide
  have c7 : ¬ (s3 < 0x80 ∨ 0xBF < s3) := by omega
  unfold DecodeRuneInString
  simp only [hx, hsz, List.getD_cons_zero, List.getD_cons_succ, List.length_cons]
  rw [if_neg c1, if_neg c2, if_neg c3, if_neg c4, if_neg c5, if_neg c6, if_neg c7]

/-- Decoding undoes encoding: the first rune of the encoding of a scalar value `c`,
whatever follows it, is `c`, and its width is the length of the encoding. -/
theorem DecodeRuneInString_encodeRune (c : Nat) (rest : GoString)
    (hc : c < 0xD800 ∨ (0xDFFF < c ∧ c < 0x110000)) :
    DecodeRuneInString (encodeRune c ++ rest) = (c, (encodeRune c).length) := by
  unfold encodeRune
  by_cases h1 : c < 0x80
  · rw [if_pos h1]
    simp only [List.singleton_append, List.length_singleton, DecodeRuneInString]
    simp [first_ascii c h1]
  · rw [if_neg h1]
    by_cases h2 : c < 0x800
    · rw [if_pos h2]
      have hf := first_two (0xC0 + c / 64) (by omega) (by omega)
      rw [List.cons_append, List.cons_append, List.nil_append,
        DecodeRuneInString_two _ _ _ rest hf (by norm_num) (by norm_num)
          (by simp only [acceptRanges]; omega) (by simp only [acceptRanges]; omega)]
      simp only [List.length_cons, List.length_nil, Prod.mk.injEq, and_true]
      omega
    · have hsur : ¬ ((0xD800 ≤ c ∧ c ≤ 0xDFFF) ∨ 0x10FFFF < c) := by omega
      rw [if_neg h2, if_neg hsur]
      by_cases h3 : c < 0x10000
      · rw [if_pos h3, List.cons_append, List.cons_append, List.cons_append, List.nil_append]
        have hf : ∃ x, first (0xE0 + c / 4096) = x ∧ x < 0xF0 ∧ x % 8 = 3 ∧
            (acceptRanges (x / 16)).1 ≤ 0x80 + c / 64 % 64 ∧
            0x80 + c / 64 % 64 ≤ (acceptRanges (x / 16)).2 := by
          by_cases ha : c < 0x1000
          · have e : 0xE0 + c / 4096 = 0xE0 := by omega
            refine ⟨0x13, by rw [e]; rfl, by norm_num, by norm_num, ?_, ?_⟩ <;>
              simp only [acceptRanges] <;> omega
          · by_cases hb : 0xD000 ≤ c ∧ c < 0xE000
            · have e : 0xE0 + c / 4096 = 0xED := by omega
              refine ⟨0x23, by rw [e]; rfl, by norm_num, by norm_num, ?_, ?_⟩ <;>
                simp only [acceptRanges] <;> omega
            · refine ⟨0x03, first_three _ (by omega) (by omega) (by omega), by norm_num,
                by norm_num, ?_, ?_⟩ <;> simp only [acceptRanges] <;> omega
        obtain ⟨x, hx, hlt, hsz, ha1, ha2⟩ := hf
        rw [DecodeRuneInString_three _ _ _ _ rest hx hlt hsz ha1 ha2 (by omega) (by omega)]
        simp only [List.length_cons, List.length_nil, Prod.mk.injEq, and_true]
        omega
      · rw [if_neg h3, List.cons_append, List.cons_append, List.cons_append, List.cons_append,
          List.nil_append]
        have hf : ∃ x, first (0xF0 + c / 262144) = x ∧ x < 0xF0 ∧ x % 8 = 4 ∧
            (acceptRanges (x / 16)).1 ≤ 0x80 + c / 4096 % 64 ∧
            0x80 + c / 4096 % 64 ≤ (acceptRanges (x / 16)).2 := by
          by_cases ha : c < 0x40000
          · have e : 0xF0 + c / 262144 = 0xF0 := by omega
            refine ⟨0x34, by rw [e]; rfl, by norm_num, by norm_num, ?_, ?_⟩ <;>
              simp only [acceptRanges] <;> omega
          · by_cases hb : c < 0x100000
            · refine ⟨0x04, first_four _ (by omega) (by omega), by norm_num, by norm_num,
                ?_, ?_⟩ <;> simp only [acceptRanges] <;> omega
            · have e : 0xF0 + c / 262144 = 0xF4 := by omega
              refine ⟨0x44, by rw [e]; rfl, by norm_num, by norm_num, ?_, ?_⟩ <;>
                simp only [acceptRanges] <;> omega
        obtain ⟨x, hx, hlt, hsz, ha1, ha2⟩ := hf
        rw [DecodeRuneInString_four _ _ _ _ _ rest hx hlt hsz ha1 ha2 (by omega) (by omega)
          (by omega) (by omega)]
        simp only [List.length_cons, List.length_nil, Prod.mk.injEq, and_true]
        omega

theorem encodeRune_length_pos (c : Nat) : 1 ≤ (encodeRune c).length := by
  unfold encodeRune
  split_ifs <;> simp

theorem runesFuel_goStr (cs : List Char) (fuel : Nat) (h : cs.length ≤ fuel) :
    runesFuel fuel (cs.flatMap fun c => encodeRune c.toNat) = cs.map Char.toNat := by
  induction cs generalizing fuel with
  | nil => cases fuel <;> simp [runesFuel]
  | cons c cs ih =>
    cases fuel with
    | zero => simp at h
    | succ fuel =>
      have hvalid : c.toNat < 0xD800 ∨ (0xDFFF < c.toNat ∧ c.toNat < 0x110000) := c.valid
      have hdec := DecodeRuneInString_encodeRune c.toNat
        (cs.flatMap fun c => encodeRune c.toNat) hvalid
      have hpos := encodeRune_length_pos c.toNat
      rw [List.flatMap_cons]
      rcases he : encodeRune c.toNat with _ | ⟨b, bs⟩
      · rw [he] at hpos
        simp at hpos
      · rw [he] at hdec
        rw [List.cons_append] at hdec ⊢
        simp only [runesFuel, hdec, List.map_cons]
        rw [← List.cons_append, List.drop_left]
        rw [ih fuel (by simpa using h)]

/-- For a string that is valid UTF-8 the runes are its Unicode scalar values. -/
theorem runes_goStr (s : String) : runes (goStr s) = s.data.map Char.toNat := by
  unfold runes goStr
  apply runesFuel_goStr
  induction s.data with
  | nil => simp
  | cons c cs ih =>
    have := encodeRune_length_pos c.toNat
    simp only [List.flatMap_cons, List.length_append, List.length_cons]
    omega

/-! ### The handler of `/add` -/

theorem addTodo_events (w : World) (text : GoString) :
    (addTodo w text).2 =
      [Event.addTodo text,
        Event.PutItem w.tableName
          [("Id", .S w.newUUID), ("Text", .S text), ("CreatedAtEpoch", .N (FormatInt w.now))]] := by
  simp [addTodo, MarshalMap]

theorem addTodo_error (w : World) (text : GoString) :
    (addTodo w text).1 =
      w.PutItem w.tableName
        [("Id", .S w.newUUID), ("Text", .S text), ("CreatedAtEpoch", .N (FormatInt w.now))] := by
  simp [addTodo, MarshalMap]

/-- The cases of `addHandler` on a POST with a non-empty `text`. -/
theorem addHandler_post_cases (w : World) (r : Request)
    (hPost : r.Method = MethodPost) (hText : r.FormValue "text" ≠ []) :
    ((addHandler w r).1.status = 400 ↔
      (200 < (runes (r.FormValue "text")).length ∨
        ∃ c ∈ runes (r.FormValue "text"), w.IsPrint c = false)) ∧
    ((addHandler w r).1.status = 400 → (addHandler w r).2 = []) ∧
    ((addHandler w r).1.status ≠ 400 →
      (addHandler w r).2 =
        [Event.addTodo (r.FormValue "text"),
          Event.PutItem w.tableName
            [("Id", .S w.newUUID), ("Text", .S (r.FormValue "text")),
              ("CreatedAtEpoch", .N (FormatInt w.now))]] ∧
      (w.PutItem w.tableName
          [("Id", .S w.newUUID), ("Text", .S (r.FormValue "text")),
            ("CreatedAtEpoch", .N (FormatInt w.now))] = none →
        (addHandler w r).1 = .Redirect (goStr "/") 303) ∧
      (∀ err, w.PutItem w.tableName
          [("Id", .S w.newUUID), ("Text", .S (r.FormValue "text")),
            ("CreatedAtEpoch", .N (FormatInt w.now))] = some err →
        (addHandler w r).1 = .Error (goStr "failed to add todo: " ++ err) 500)) := by
  have hev := addTodo_events w (r.FormValue "text")
  have her := addTodo_error w (r.FormValue "text")
  by_cases hlen : 200 < (runes (r.FormValue "text")).length
  · simp [addHandler, hPost, hText, RuneCountInString, hlen, Response.status, StatusBadRequest]
  · by_cases hpr : ∃ c ∈ runes (r.FormValue "text"), w.IsPrint c = false
    · have hany : ((runes (r.FormValue "text")).any fun c => !w.IsPrint c) = true := by
        obtain ⟨c, hc, hp⟩ := hpr
        exact List.any_eq_true.mpr ⟨c, hc, by simp [hp]⟩
      simp [addHandler, hPost, hText, RuneCountInString, hlen, hany, hpr, Response.status,
        StatusBadRequest]
    · have hany : ((runes (r.FormValue "text")).any fun c => !w.IsPrint c) = false := by
        rw [Bool.eq_false_iff]
        intro h
        obtain ⟨c, hc, hp⟩ := List.any_eq_true.mp h
        exact hpr ⟨c, hc, by simpa using hp⟩
      have hred : addHandler w r =
          match addTodo w (r.FormValue "text") with
          | (some err, events) =>
            (.Error (goStr "failed to add todo: " ++ err) StatusInternalServerError, events)
          | (none, events) => (.Redirect (goStr "/") StatusSeeOther, events) := by
        simp [addHandler, hPost, hText, RuneCountInString, hlen, hany]
      rcases hres : addTodo w (r.FormValue "text") with ⟨err, events⟩
      rw [hres] at hev her
      simp only at hev her
      subst hev
      have hnot : ¬ (200 < (runes (r.FormValue "text")).length ∨
          ∃ c ∈ runes (r.FormValue "text"), w.IsPrint c = false) := by
        rintro (h | h)
        · exact hlen h
        · exact hpr h
      cases err with
      | none =>
        rw [hred, hres]
        refine ⟨⟨fun h => by simp [Response.status, StatusSeeOther] at h,
          fun h => absurd h hnot⟩, fun h => by simp [Response.status, StatusSeeOther] at h, ?_⟩
        intro _
        refine ⟨rfl, fun _ => rfl, ?_⟩
        intro err herr
        rw [← her] at herr
        cases herr
      | some e =>
        rw [hred, hres]
        refine ⟨⟨fun h => by simp [Response.status, StatusInternalServerError] at h,
          fun h => absurd h hnot⟩,
          fun h => by simp [Response.status, StatusInternalServerError] at h, ?_⟩
        intro _
        refine ⟨rfl, ?_, ?_⟩
        · intro h
          rw [← her] at h
          cases h
        · intro err herr
          rw [← her] at herr
          cases herr
          rfl

/-- C1: for a POST to `/add` with a non-empty `text`, `addHandler` answers 400 exactly when
the text has more than 200 runes or a rune that `unicode.IsPrint` rejects, and then calls
nothing; otherwise it calls `addTodo` once with the text as submitted (one `PutItem` whose
`Text` attribute is that text) and answers 303 to `/` when the store accepts the write and
500 when the store fails.  The runes are counted as Go decodes them, not the bytes: for a
text that is valid UTF-8 they are its Unicode scalar values. -/
theorem addHandler_validates_then_adds (w : World) (r : Request)
    (hPost : r.Method = MethodPost) (hText : r.FormValue "text" ≠ []) :
    ((addHandler w r).1.status = 400 ↔
      (200 < (runes (r.FormValue "text")).length ∨
        ∃ c ∈ runes (r.FormValue "text"), w.IsPrint c = false)) ∧
    ((addHandler w r).1.status = 400 → (addHandler w r).2 = []) ∧
    ((addHandler w r).1.status ≠ 400 →
      (addHandler w r).2 =
        [Event.addTodo (r.FormValue "text"),
          Event.PutItem w.tableName
            [("Id", .S w.newUUID), ("Text", .S (r.FormValue "text")),
              ("CreatedAtEpoch", .N (FormatInt w.now))]] ∧
      (w.PutItem w.tableName
          [("Id", .S w.newUUID), ("Text", .S (r.FormValue "text")),
            ("CreatedAtEpoch", .N (FormatInt w.now))] = none →
        (addHandler w r).1 = .Redirect (goStr "/") 303) ∧
      (∀ err, w.PutItem w.tableName
          [("Id", .S w.newUUID), ("Text", .S (r.FormValue "text")),
            ("CreatedAtEpoch", .N (FormatInt w.now))] = some err →
        (addHandler w r).1 = .Error (goStr "failed to add todo: " ++ err) 500)) ∧
    (∀ s : String, r.FormValue "text" = goStr s →
      runes (r.FormValue "text") = s.data.map Char.toNat) := by
  obtain ⟨h1, h2, h3⟩ := addHandler_post_cases w r hPost hText
  refine ⟨h1, h2, h3, ?_⟩
  intro s hs
  rw [hs]
  exact runes_goStr s

theorem addHandler_validates_then_adds_witness :
    (request "POST" [("text", goStr "Buy milk.")]).Method = MethodPost ∧
    (request "POST" [("text", goStr "Buy milk.")]).FormValue "text" ≠ [] ∧
    (addHandler (exampleWorld []) (request "POST" [("text", goStr "Buy milk.")])).2 =
      [Event.addTodo (goStr "Buy milk."),
        Event.PutItem (goStr "todos")
          [("Id", .S (goStr "123e4567-e89b-12d3-a456-426614174000")),
            ("Text", .S (goStr "Buy milk.")), ("CreatedAtEpoch", .N (goStr "1700000000"))]] :=
  ⟨by decide, by decide,
    ((addHandler_validates_then_adds (exampleWorld [])
      (request "POST" [("text", goStr "Buy milk.")]) (by decide) (by decide)).2.2.1
        (by decide)).1⟩

/-- C9: a request to `/add`, `/delete` or `/generate` whose method is not POST, and a POST
to `/add` whose `text` is empty, is answered 303 with a redirect to `/` and causes no call
at all: no store call, no generation call, whatever the form fields hold. -/
theorem non_post_and_empty_text_are_noops (w : World) (r : Request)
    (h : r.Method ≠ MethodPost ∨ r.FormValue "text" = []) :
    addHandler w r = (.Redirect (goStr "/") 303, []) ∧
    (r.Method ≠ MethodPost →
      deleteHandler w r = (.Redirect (goStr "/") 303, []) ∧
      generateHandler w r = (.Redirect (goStr "/") 303, [])) := by
  refine ⟨?_, ?_⟩
  · by_cases hm : r.Method = MethodPost
    · rcases h with h | h
      · exact absurd hm h
      · simp [addHandler, hm, h, StatusSeeOther]
    · simp [addHandler, hm, StatusSeeOther]
  · intro hm
    simp [deleteHandler, generateHandler, hm, StatusSeeOther]

theorem non_post_and_empty_text_are_noops_witness :
    (addHandler failingStoreWorld (request "GET" [("text", goStr "Buy milk.")]) =
        (.Redirect (goStr "/") 303, []) ∧
      deleteHandler failingStoreWorld
          (request "GET" [("id", goStr "a"), ("createdAtEpoch", goStr "1700000100")]) =
        (.Redirect (goStr "/") 303, []) ∧
      generateHandler failingStoreWorld (request "PUT" []) = (.Redirect (goStr "/") 303, [])) ∧
    addHandler failingStoreWorld (request "POST" [("id", goStr "a")]) =
      (.Redirect (goStr "/") 303, []) :=
  ⟨⟨(non_post_and_empty_text_are_noops failingStoreWorld
        (request "GET" [("text", goStr "Buy milk.")]) (Or.inl (by decide))).1,
      ((non_post_and_empty_text_are_noops failingStoreWorld
        (request "GET" [("id", goStr "a"), ("createdAtEpoch", goStr "1700000100")])
        (Or.inl (by decide))).2 (by decide)).1,
      ((non_post_and_empty_text_are_noops failingStoreWorld (request "PUT" [])
        (Or.inl (by decide))).2 (by decide)).2⟩,
    (non_post_and_empty_text_are_noops failingStoreWorld (request "POST" [("id", goStr "a")])
      (Or.inr (by decide))).1⟩

/-- When the request cannot be marshalled, `generateHandler` answers 500 and calls nothing. -/
theorem generateHandler_of_marshal_error (w : World) (r : Request) (err : GoString)
    (hPost : r.Method = MethodPost) (hm : w.jsonMarshal titanRequest = .error err) :
    generateHandler w r = (.Error (goStr "failed to marshal request: " ++ err) 500, []) := by
  simp [generateHandler, hPost, hm, StatusInternalServerError]

/-- C8: on a POST to `/generate`, when the call of the model fails, or the body of its
answer does not decode, or the decoded answer has no result, `generateHandler` answers 500
and `addTodo` is not called and nothing is written to the store: the only call is the one
to the model.  The answer without a result is reported as "empty response from bedrock". -/
theorem generateHandler_failure_creates_nothing (w : World) (r : Request) (payload : GoString)
    (hPost : r.Method = MethodPost) (hm : w.jsonMarshal titanRequest = .ok payload)
    (hfail :
      (∃ err, w.InvokeModel ⟨payload, w.bedrockModelName, goStr "application/json",
          goStr "application/json"⟩ = .error err) ∨
      ∃ body, w.InvokeModel ⟨payload, w.bedrockModelName, goStr "application/json",
          goStr "application/json"⟩ = .ok body ∧
        ((∃ err, w.jsonUnmarshal body = .error err) ∨
          ∃ response, w.jsonUnmarshal body = .ok response ∧ response.Results = [])) :
    (generateHandler w r).1.status = 500 ∧
    (generateHandler w r).2 =
      [Event.InvokeModel ⟨payload, w.bedrockModelName, goStr "application/json",
        goStr "application/json"⟩] ∧
    (∀ text, Event.addTodo text ∉ (generateHandler w r).2) ∧
    (∀ table item, Event.PutItem table item ∉ (generateHandler w r).2) ∧
    (∀ body response, w.InvokeModel ⟨payload, w.bedrockModelName, goStr "application/json",
          goStr "application/json"⟩ = .ok body →
        w.jsonUnmarshal body = .ok response → response.Results = [] →
      (generateHandler w r).1 = .Error (goStr "empty response from bedrock") 500) := by
  rcases hfail with ⟨err, hi⟩ | ⟨body, hi, ⟨err, hu⟩ | ⟨response, hu, hr⟩⟩
  · simp [generateHandler, hPost, hm, hi, StatusInternalServerError, Response.status]
  · simp [generateHandler, hPost, hm, hi, hu, StatusInternalServerError, Response.status]
    intro body2 response hb hu2
    subst hb
    rw [hu] at hu2
    cases hu2
  · simp [generateHandler, hPost, hm, hi, hu, hr, StatusInternalServerError, Response.status]

theorem generateHandler_failure_creates_nothing_witness :
    (generateHandler emptyResultsWorld (request "POST" [])).1 =
        .Error (goStr "empty response from bedrock") 500 ∧
      (generateHandler emptyResultsWorld (request "POST" [])).2 =
        [Event.InvokeModel ⟨goStr "request", goStr "amazon.titan-text-lite-v1",
          goStr "application/json", goStr "application/json"⟩] :=
  have h := generateHandler_failure_creates_nothing emptyResultsWorld (request "POST" [])
    (goStr "request") (by decide) rfl
    (Or.inr ⟨goStr "response", rfl, Or.inr ⟨⟨20, []⟩, rfl, rfl⟩⟩)
  ⟨h.2.2.2.2 (goStr "response") ⟨20, []⟩ rfl rfl rfl, h.2.1⟩

/-! ### `strconv.ParseInt` -/

theorem decimalValueFrom_ge (digits : GoString) (n : Nat) : n ≤ decimalValueFrom n digits := by
  induction digits generalizing n with
  | nil => simp [decimalValueFrom]
  | cons d ds ih =>
    have h := ih (10 * n + (d - 0x30))
    simp only [decimalValueFrom, List.foldl_cons] at h ⊢
    omega

theorem parseUintLoop_digits (digits : GoString) (n : Nat) (hn : n < 2 ^ 64)
    (hd : digits.all isDigit = true) :
    parseUintLoop digits n =
      if decimalValueFrom n digits < 2 ^ 64 then (decimalValueFrom n digits, none)
      else (2 ^ 64 - 1, some .ErrRange) := by
  induction digits generalizing n with
  | nil =>
    norm_num at hn
    simp [parseUintLoop, decimalValueFrom, hn]
  | cons c cs ih =>
    simp only [List.all_cons, Bool.and_eq_true, isDigit, decide_eq_true_eq] at hd
    obtain ⟨⟨hc1, hc2⟩, hcs⟩ := hd
    have hge := decimalValueFrom_ge cs (10 * n + (c - 0x30))
    have hval : decimalValueFrom n (c :: cs) = decimalValueFrom (10 * n + (c - 0x30)) cs := by
      simp [decimalValueFrom]
    rw [hval]
    norm_num at hn
    by_cases hcut : n ≥ (2 ^ 64 - 1) / 10 + 1
    · norm_num at hcut
      have hbig : ¬ decimalValueFrom (10 * n + (c - 0x30)) cs < 2 ^ 64 := by
        norm_num
        omega
      rw [if_neg hbig]
      simp only [parseUintLoop, hc1, hc2, and_self, if_true]
      norm_num
      intro h
      omega
    · have hcut2 := hcut
      norm_num at hcut2
      by_cases hov : 10 * n + (c - 0x30) < 2 ^ 64
      · have hstep : parseUintLoop (c :: cs) n = parseUintLoop cs (10 * n + (c - 0x30)) := by
          norm_num at hov
          have e1 : n * 10 % 2 ^ 64 = n * 10 := Nat.mod_eq_of_lt (by norm_num; omega)
          have e2 : (n * 10 + (c - 0x30)) % 2 ^ 64 = n * 10 + (c - 0x30) :=
            Nat.mod_eq_of_lt (by norm_num; omega)
          simp only [parseUintLoop, hc1, hc2, and_self, if_true, if_neg hcut, e1, e2]
          have e3 : ¬ (n * 10 + (c - 0x30) < n * 10 ∨ n * 10 + (c - 0x30) > 2 ^ 64 - 1) := by
            norm_num
            omega
          rw [if_neg e3, Nat.mul_comm]
        rw [hstep]
        exact ih _ hov hcs
      · have hbig : ¬ decimalValueFrom (10 * n + (c - 0x30)) cs < 2 ^ 64 := by
          norm_num at hov ⊢
          omega
        rw [if_neg hbig]
        norm_num at hov
        have e1 : n * 10 % 2 ^ 64 = n * 10 := Nat.mod_eq_of_lt (by norm_num; omega)
        have e2 : (n * 10 + (c - 0x30)) % 2 ^ 64 = n * 10 + (c - 0x30) - 2 ^ 64 := by
          norm_num
          omega
        simp only [parseUintLoop, hc1, hc2, and_self, if_true, if_neg hcut, e1, e2]
        have e3 : (n * 10 + (c - 0x30) - 2 ^ 64 < n * 10 ∨
            n * 10 + (c - 0x30) - 2 ^ 64 > 2 ^ 64 - 1) := by
          norm_num
          omega
        rw [if_pos e3]

theorem parseUintLoop_not_digits (s : GoString) (n : Nat) (hd : s.all isDigit = false) :
    (parseUintLoop s n).2 = some .ErrSyn ∨ parseUintLoop s n = (2 ^ 64 - 1, some .ErrRange) := by
  induction s generalizing n with
  | nil => simp at hd
  | cons c cs ih =>
    by_cases hc : 0x30 ≤ c ∧ c ≤ 0x39
    · have hcs : cs.all isDigit = false := by
        simp only [List.all_cons, isDigit, hc, and_self, decide_True, Bool.true_and] at hd
        exact hd
      simp only [parseUintLoop, hc, and_self, if_true]
      split
      · exact Or.inr rfl
      · split
        · exact Or.inr rfl
        · exact ih _ hcs
    · left
      simp [parseUintLoop, hc]

/-- The function `ParseUint` never reports `ErrRange` with a small value, and reports no
error only on a string of digits, with its value. -/
theorem ParseUint_cases (digits : GoString) :
    (digits ≠ [] ∧ digits.all isDigit = true ∧ decimalValueFrom 0 digits < 2 ^ 64 ∧
        ParseUint digits = (decimalValueFrom 0 digits, none)) ∨
    (digits ≠ [] ∧ digits.all isDigit = true ∧ 2 ^ 64 ≤ decimalValueFrom 0 digits ∧
        ParseUint digits = (2 ^ 64 - 1, some .ErrRange)) ∨
    ((digits = [] ∨ digits.all isDigit = false) ∧
        ((ParseUint digits).2 = some .ErrSyn ∨ ParseUint digits = (2 ^ 64 - 1, some .ErrRange))) := by
  by_cases he : digits = []
  · right; right
    subst he
    exact ⟨Or.inl rfl, Or.inl rfl⟩
  · by_cases hd : digits.all isDigit = true
    · have h := parseUintLoop_digits digits 0 (by norm_num) hd
      by_cases hv : decimalValueFrom 0 digits < 2 ^ 64
      · left
        rw [if_pos hv] at h
        exact ⟨he, hd, hv, by simp [ParseUint, he, h]⟩
      · right; left
        rw [if_neg hv] at h
        exact ⟨he, hd, Nat.le_of_not_lt hv, by simp [ParseUint, he, h]⟩
    · right; right
      have hd2 : digits.all isDigit = false := by simpa using hd
      refine ⟨Or.inr hd2, ?_⟩
      have h := parseUintLoop_not_digits digits 0 hd2
      simpa [ParseUint, he] using h

theorem ParseInt_cons (c : Nat) (cs digits : GoString)
    (hdg : (if c = 0x2B ∨ c = 0x2D then cs else c :: cs) = digits) :
    ParseInt (c :: cs) =
      if (ParseUint digits).2 = some .ErrSyn then (0, (ParseUint digits).2)
      else if ¬ c = 0x2D ∧ (ParseUint digits).1 ≥ 2 ^ 63 then ((2 ^ 63 : Int) - 1, some .ErrRange)
      else if c = 0x2D ∧ (ParseUint digits).1 > 2 ^ 63 then (-(2 ^ 63 : Int), some .ErrRange)
      else if c = 0x2D then (-((ParseUint digits).1 : Int), none)
      else (((ParseUint digits).1 : Int), none) := by
  subst hdg
  simp only [ParseInt]
  norm_num

theorem int64Decimal_cons (c : Nat) (cs digits : GoString)
    (hdg : (if c = 0x2B ∨ c = 0x2D then cs else c :: cs) = digits) :
    int64Decimal (c :: cs) =
      if digits ≠ [] ∧ digits.all isDigit = true then
        if c = 0x2D then
          if decimalValueFrom 0 digits ≤ 2 ^ 63 then some (-(decimalValueFrom 0 digits : Int))
          else none
        else
          if decimalValueFrom 0 digits < 2 ^ 63 then some (decimalValueFrom 0 digits : Int)
          else none
      else none := by
  have h0 : int64Decimal (c :: cs) =
      (if digits ≠ [] ∧ digits.all isDigit = true then
        some (if c = 0x2D then -(decimalValueFrom 0 digits : Int)
          else (decimalValueFrom 0 digits : Int))
      else none).filter fun n => -(2 ^ 63 : Int) ≤ n ∧ n < 2 ^ 63 := by
    simp only [int64Decimal, decimalInteger, hdg]
  rw [h0]
  generalize decimalValueFrom 0 digits = v
  by_cases hok : digits ≠ [] ∧ digits.all isDigit = true
  · rw [if_pos hok, if_pos hok]
    by_cases hneg : c = 0x2D
    · rw [if_pos hneg, if_pos hneg]
      by_cases h63 : v ≤ 2 ^ 63
      · rw [if_pos h63]
        norm_num at h63
        simp only [Option.filter]
        norm_num
        omega
      · rw [if_neg h63]
        norm_num at h63
        simp only [Option.filter]
        norm_num
        omega
    · rw [if_neg hneg, if_neg hneg]
      by_cases h63 : v < 2 ^ 63
      · rw [if_pos h63]
        norm_num at h63
        simp only [Option.filter]
        norm_num
        omega
      · rw [if_neg h63]
        norm_num at h63
        simp only [Option.filter]
        norm_num
        omega
  · rw [if_neg hok, if_neg hok]
    rfl

/-- The function `strconv.ParseInt(s, 10, 64)` accepts exactly the strings that denote a
base-10 signed 64-bit integer, and returns that integer. -/
theorem ParseInt_spec (s : GoString) :
    ((ParseInt s).2 = none → int64Decimal s = some (ParseInt s).1) ∧
    ((ParseInt s).2 ≠ none → int64Decimal s = none) := by
  cases s with
  | nil => simp [ParseInt, int64Decimal, decimalInteger]
  | cons c cs =>
    generalize hdg : (if c = 0x2B ∨ c = 0x2D then cs else c :: cs) = digits
    rw [ParseInt_cons c cs digits hdg, int64Decimal_cons c cs digits hdg]
    rcases ParseUint_cases digits with ⟨he, hd, hv, hp⟩ | ⟨he, hd, hv, hp⟩ | ⟨hbad, hp⟩
    · rw [hp]
      rw [if_pos (show digits ≠ [] ∧ digits.all isDigit = true from ⟨he, hd⟩)]
      generalize decimalValueFrom 0 digits = v at hv ⊢
      by_cases hneg : c = 0x2D
      · by_cases h63 : v ≤ 2 ^ 63
        · have h63b : ¬ v > 2 ^ 63 := Nat.not_lt.mpr h63
          simp only [hneg, h63, h63b]
          simp
        · have h63b : v > 2 ^ 63 := Nat.lt_of_not_le h63
          simp only [hneg, h63, h63b]
          simp
      · by_cases h63 : v < 2 ^ 63
        · have h63b : ¬ v ≥ 2 ^ 63 := Nat.not_le.mpr h63
          simp only [hneg, h63, h63b]
          simp
        · have h63b : v ≥ 2 ^ 63 := Nat.le_of_not_lt h63
          simp only [hneg, h63, h63b]
          simp
    · rw [hp]
      generalize decimalValueFrom 0 digits = v at hv ⊢
      have h1 : ¬ v ≤ 2 ^ 63 := by norm_num at hv ⊢; omega
      have h2 : ¬ v < 2 ^ 63 := by norm_num at hv ⊢; omega
      norm_num at h1 h2
      by_cases hneg : c = 0x2D
      · simp [hneg]
        intro _ _
        omega
      · simp [hneg]
        intro _ _
        omega
    · have hno : ¬ (digits ≠ [] ∧ digits.all isDigit = true) := by
        rintro ⟨h1, h2⟩
        rcases hbad with h | h
        · exact h1 h
        · rw [h] at h2
          cases h2
      rw [if_neg hno]
      rcases hp with hp | hp
      · simp [hp]
      · rw [hp]
        by_cases hneg : c = 0x2D
        · simp [hneg]
        · simp [hneg]

/-! ### The handler of `/delete` -/

/-- C7: on a POST to `/delete`, when the `createdAtEpoch` field is not a base-10 signed
64-bit integer (as "not-a-number", the empty string and 2^63 are not), `deleteHandler`
answers 400 and calls nothing; when it is the integer `n`, `deleteTodo` is called once
with the submitted `id` and `n` (one `DeleteItem` with that key), and the answer is 303 to
`/` when the store succeeds and 500 when it fails. -/
theorem deleteHandler_parses_epoch (w : World) (r : Request) (hPost : r.Method = MethodPost) :
    (int64Decimal (r.FormValue "createdAtEpoch") = none →
      deleteHandler w r = (.Error (goStr "invalid createdAtEpoch") 400, [])) ∧
    (∀ n, int64Decimal (r.FormValue "createdAtEpoch") = some n →
      (deleteHandler w r).2 =
        [Event.deleteTodo (r.FormValue "id") n,
          Event.DeleteItem w.tableName
            [("Id", .S (r.FormValue "id")), ("CreatedAtEpoch", .N (FormatInt n))]] ∧
      (w.DeleteItem w.tableName
          [("Id", .S (r.FormValue "id")), ("CreatedAtEpoch", .N (FormatInt n))] = none →
        (deleteHandler w r).1 = .Redirect (goStr "/") 303) ∧
      (∀ err, w.DeleteItem w.tableName
          [("Id", .S (r.FormValue "id")), ("CreatedAtEpoch", .N (FormatInt n))] = some err →
        (deleteHandler w r).1 = .Error (goStr "failed to delete todo: " ++ err) 500)) ∧
    int64Decimal (goStr "not-a-number") = none ∧
    int64Decimal (goStr "") = none ∧
    int64Decimal (goStr "9223372036854775808") = none := by
  have hspec := ParseInt_spec (r.FormValue "createdAtEpoch")
  refine ⟨?_, ?_, by decide, by decide, by decide⟩
  · intro hnone
    rcases hp : ParseInt (r.FormValue "createdAtEpoch") with ⟨v, err⟩
    rw [hp] at hspec
    cases err with
    | none =>
      have := hspec.1 rfl
      rw [hnone] at this
      cases this
    | some e =>
      simp [deleteHandler, hPost, hp, StatusBadRequest]
  · intro n hn
    rcases hp : ParseInt (r.FormValue "createdAtEpoch") with ⟨v, err⟩
    rw [hp] at hspec
    cases err with
    | some e =>
      have := hspec.2 (by simp)
      rw [hn] at this
      cases this
    | none =>
      have hv := hspec.1 rfl
      rw [hn] at hv
      simp only [Option.some.injEq] at hv
      subst hv
      rcases hd : w.DeleteItem w.tableName
          [("Id", .S (r.FormValue "id")), ("CreatedAtEpoch", .N (FormatInt n))] with _ | e
      · simp [deleteHandler, hPost, hp, deleteTodo, hd, StatusSeeOther]
      · simp [deleteHandler, hPost, hp, deleteTodo, hd, StatusInternalServerError]

theorem deleteHandler_parses_epoch_witness :
    (request "POST" [("id", goStr "a"), ("createdAtEpoch", goStr "-1700000100")]).Method
        = MethodPost ∧
      deleteHandler failingStoreWorld
          (request "POST" [("id", goStr "a"), ("createdAtEpoch", goStr "-1700000100")]) =
        (.Error (goStr "failed to delete todo: throttled") 500,
          [Event.deleteTodo (goStr "a") (-1700000100),
            Event.DeleteItem (goStr "todos")
              [("Id", .S (goStr "a")), ("CreatedAtEpoch", .N (goStr "-1700000100"))]]) :=
  have h := (deleteHandler_parses_epoch failingStoreWorld
    (request "POST" [("id", goStr "a"), ("createdAtEpoch", goStr "-1700000100")])
    (by decide)).2.1 (-1700000100) (by decide)
  ⟨by decide, Prod.ext (h.2.2 (goStr "throttled") (by decide)) h.1⟩

/-! ### The handler of `/generate` -/

theorem trimLeftByte_spec (s : GoString) (c : Nat) :
    ∃ pre, s = pre ++ trimLeftByte s c ∧ (∀ b ∈ pre, b = c) ∧
      (trimLeftByte s c).head? ≠ some c := by
  induction s with
  | nil => exact ⟨[], by simp [trimLeftByte]⟩
  | cons b bs ih =>
    by_cases hb : b = c
    · obtain ⟨pre, h1, h2, h3⟩ := ih
      refine ⟨b :: pre, ?_, ?_, ?_⟩
      · subst hb
        simp only [trimLeftByte, if_true, List.cons_append]
        rw [← h1]
      · intro x hx
        rcases List.mem_cons.mp hx with h | h
        · rw [h, hb]
        · exact h2 x h
      · simpa [trimLeftByte, hb] using h3
    · exact ⟨[], by simp [trimLeftByte, hb]⟩

theorem trimRightByte_spec (s : GoString) (c : Nat) :
    ∃ post, s = trimRightByte s c ++ post ∧ (∀ b ∈ post, b = c) ∧
      (trimRightByte s c).getLast? ≠ some c := by
  obtain ⟨pre, h1, h2, h3⟩ := trimLeftByte_spec s.reverse c
  refine ⟨pre.reverse, ?_, ?_, ?_⟩
  · have := congrArg List.reverse h1
    simpa [trimRightByte] using this
  · intro b hb
    exact h2 b (List.mem_reverse.mp hb)
  · simpa [trimRightByte, List.getLast?_reverse] using h3

/-- The function `strings.Trim(s, "\"")` removes the whole run of quotes at each end: the
string is a run of quotes, the result, and a run of quotes, and the result neither starts
nor ends with a quote. -/
theorem Trim_spec (s : GoString) (c : Nat) :
    ∃ pre post, s = pre ++ Trim s c ++ post ∧ (∀ b ∈ pre, b = c) ∧ (∀ b ∈ post, b = c) ∧
      (Trim s c).head? ≠ some c ∧ (Trim s c).getLast? ≠ some c := by
  obtain ⟨post, hr1, hr2, hr3⟩ := trimRightByte_spec s c
  obtain ⟨pre, hl1, hl2, hl3⟩ := trimLeftByte_spec (trimRightByte s c) c
  refine ⟨pre, post, ?_, hl2, hr2, hl3, ?_⟩
  · show s = pre ++ trimLeftByte (trimRightByte s c) c ++ post
    rw [← hl1]
    exact hr1
  · show (trimLeftByte (trimRightByte s c) c).getLast? ≠ some c
    intro h
    apply hr3
    rw [hl1, List.getLast?_append, h]
    rfl

theorem take_append_last (s : GoString) (h : s ≠ []) :
    s = s.take (s.length - 1) ++ [s.getD (s.length - 1) 0] := by
  have h1 := List.dropLast_append_getLast h
  rw [List.dropLast_eq_take] at h1
  have h2 : s.getD (s.length - 1) 0 = s.getLast h := by
    rw [List.getLast_eq_getElem]
    rw [List.getD_eq_getElem?_getD, List.getElem?_eq_getElem (by
      have := List.length_pos.mpr h
      omega)]
    rfl
  rw [h2]
  exact h1.symm

theorem trimSpaceRight_ascii (fuel : Nat) (s : GoString) (hs : ∀ b ∈ s, b < 0x80)
    (hf : s.length ≤ fuel) :
    ∃ post, s = trimSpaceRight fuel s ++ post ∧ (∀ b ∈ post, asciiSpace b = true) ∧
      ∀ b, (trimSpaceRight fuel s).getLast? = some b → asciiSpace b = false := by
  induction fuel generalizing s with
  | zero =>
    have : s = [] := List.length_eq_zero.mp (Nat.le_zero.mp hf)
    subst this
    exact ⟨[], by simp [trimSpaceRight]⟩
  | succ fuel ih =>
    by_cases he : s = []
    · subst he
      exact ⟨[], by simp [trimSpaceRight]⟩
    · have hsplit := take_append_last s he
      have hlast : s.getD (s.length - 1) 0 ∈ s := by
        rw [hsplit]
        simp
      have hc := hs _ hlast
      by_cases hsp : asciiSpace (s.getD (s.length - 1) 0) = true
      · have hrec : trimSpaceRight (fuel + 1) s = trimSpaceRight fuel (s.take (s.length - 1)) := by
          simp only [trimSpaceRight, he, if_false, hsp, if_true]
          rw [if_neg (by omega)]
        obtain ⟨post, h1, h2, h3⟩ := ih (s.take (s.length - 1))
          (fun b hb => hs b (List.mem_of_mem_take hb))
          (by
            have := List.length_pos.mpr he
            simp only [List.length_take]
            omega)
        refine ⟨post ++ [s.getD (s.length - 1) 0], ?_, ?_, ?_⟩
        · rw [hrec, ← List.append_assoc, ← h1]
          exact hsplit
        · intro b hb
          rcases List.mem_append.mp hb with h | h
          · exact h2 b h
          · rw [List.mem_singleton.mp h]
            exact hsp
        · rw [hrec]
          exact h3
      · have hrec : trimSpaceRight (fuel + 1) s = s := by
          simp only [trimSpaceRight, he, if_false, hsp]
          rw [if_neg (by omega)]
          rfl
        refine ⟨[], ?_, ?_, ?_⟩
        · rw [hrec]; simp
        · simp
        · intro b hb
          rw [hrec, hsplit, List.getLast?_append] at hb
          simp at hb
          rw [← hb]
          simpa using hsp

/-- On ASCII text `strings.TrimSpace` removes the run of ASCII spaces at each end. -/
theorem TrimSpace_ascii (s : GoString) (hs : ∀ b ∈ s, b < 0x80) :
    ∃ pre post, s = pre ++ TrimSpace s ++ post ∧
      (∀ b ∈ pre, asciiSpace b = true) ∧ (∀ b ∈ post, asciiSpace b = true) ∧
      (∀ b, (TrimSpace s).head? = some b → asciiSpace b = false) ∧
      (∀ b, (TrimSpace s).getLast? = some b → asciiSpace b = false) := by
  induction s with
  | nil => exact ⟨[], [], by simp [TrimSpace]⟩
  | cons c cs ih =>
    have hc : c < 0x80 := hs c (List.mem_cons_self _ _)
    by_cases hsp : asciiSpace c = true
    · obtain ⟨pre, post, h1, h2, h3, h4, h5⟩ := ih (fun b hb => hs b (List.mem_cons_of_mem _ hb))
      have hrec : TrimSpace (c :: cs) = TrimSpace cs := by
        simp only [TrimSpace, hsp, if_true]
        rw [if_neg (by omega)]
      refine ⟨c :: pre, post, ?_, ?_, h3, ?_, ?_⟩
      · rw [hrec]
        simp only [List.cons_append, List.cons.injEq, true_and]
        exact h1
      · intro b hb
        rcases List.mem_cons.mp hb with h | h
        · rw [h]; exact hsp
        · exact h2 b h
      · rw [hrec]; exact h4
      · rw [hrec]; exact h5
    · have hrec : TrimSpace (c :: cs) = trimSpaceRight (c :: cs).length (c :: cs) := by
        simp only [TrimSpace, hsp]
        rw [if_neg (by omega)]
        rfl
      obtain ⟨post, h1, h2, h3⟩ := trimSpaceRight_ascii (c :: cs).length (c :: cs) hs le_rfl
      refine ⟨[], post, ?_, by simp, h2, ?_, ?_⟩
      · rw [hrec]
        simpa using h1
      · intro b hb
        rw [hrec] at hb
        rcases hres : trimSpaceRight (c :: cs).length (c :: cs) with _ | ⟨x, xs⟩
        · rw [hres] at h1
          simp only [List.nil_append] at h1
          have := h2 c (by rw [← h1]; exact List.mem_cons_self _ _)
          exact absurd this hsp
        · rw [hres] at hb h1
          simp only [List.head?_cons, Option.some.injEq] at hb
          simp only [List.cons_append, List.cons.injEq] at h1
          rw [← hb, ← h1.1]
          simpa using hsp
      · rw [hrec]
        exact h3

/-! ### `strings.TrimSpace` on every byte string

A rune that is not `RuneError` of width 1 was decoded from the encoding of a scalar value,
and reads the same whatever follows it.  With that, the forward loop of `TrimLeftFunc` and
the backward loop of `TrimRightFunc` each remove a run of white space runes and stop at a
rune that is not white space. -/

theorem acceptRanges_bounds (i : Nat) :
    0x80 ≤ (acceptRanges i).1 ∧ (acceptRanges i).2 ≤ 0xBF := by
  unfold acceptRanges
  split <;> decide

theorem decode_two_cases (b x : Nat) (bs : GoString) (hx : first b = x) (hlt : x < 0xF0)
    (hsz : x % 8 = 2) :
    DecodeRuneInString (b :: bs) = (RuneError, 1) ∨
      ∃ s1 tl, bs = s1 :: tl ∧ (acceptRanges (x / 16)).1 ≤ s1 ∧
        s1 ≤ (acceptRanges (x / 16)).2 ∧
        DecodeRuneInString (b :: bs) = (b % 32 * 64 + s1 % 64, 2) := by
  have c1 : ¬ 0xF0 ≤ x := Nat.not_le.mpr hlt
  cases bs with
  | nil =>
    left
    unfold DecodeRuneInString
    simp only [hx, hsz, List.length_cons, List.length_nil]
    rw [if_neg c1, if_pos (by decide)]
  | cons s1 tl =>
    by_cases hs : s1 < (acceptRanges (x / 16)).1 ∨ (acceptRanges (x / 16)).2 < s1
    · left
      have c2 : ¬ (tl.length + 1 + 1 < 2) := by omega
      unfold DecodeRuneInString
      simp only [hx, hsz, List.getD_cons_zero, List.length_cons]
      rw [if_neg c1, if_neg c2, if_pos hs]
    · right
      exact ⟨s1, tl, rfl, by omega, by omega,
        DecodeRuneInString_two b s1 x tl hx hlt hsz (by omega) (by omega)⟩

theorem decode_three_cases (b x : Nat) (bs : GoString) (hx : first b = x) (hlt : x < 0xF0)
    (hsz : x % 8 = 3) :
    DecodeRuneInString (b :: bs) = (RuneError, 1) ∨
      ∃ s1 s2 tl, bs = s1 :: s2 :: tl ∧ (acceptRanges (x / 16)).1 ≤ s1 ∧
        s1 ≤ (acceptRanges (x / 16)).2 ∧ 0x80 ≤ s2 ∧ s2 ≤ 0xBF ∧
        DecodeRuneInString (b :: bs) = (b % 16 * 4096 + s1 % 64 * 64 + s2 % 64, 3) := by
  have c1 : ¬ 0xF0 ≤ x := Nat.not_le.mpr hlt
  have c4 : ¬ (3 ≤ 2) := by decide
  rcases bs with _ | ⟨s1, _ | ⟨s2, tl⟩⟩
  · left
    unfold DecodeRuneInString
    simp only [hx, hsz, List.length_cons, List.length_nil]
    rw [if_neg c1, if_pos (by decide)]
  · left
    unfold DecodeRuneInString
    simp only [hx, hsz, List.length_cons, List.length_nil]
    rw [if_neg c1, if_pos (by decide)]
  · have c2 : ¬ (tl.length + 1 + 1 + 1 < 3) := by omega
    by_cases hs : s1 < (acceptRanges (x / 16)).1 ∨ (acceptRanges (x / 16)).2 < s1
    · left
      unfold DecodeRuneInString
      simp only [hx, hsz, List.getD_cons_zero, List.length_cons]
      rw [if_neg c1, if_neg c2, if_pos hs]
    · by_cases hs2 : s2 < 0x80 ∨ 0xBF < s2
      · left
        unfold DecodeRuneInString
        simp only [hx, hsz, List.getD_cons_zero, List.getD_cons_succ, List.length_cons]
        rw [if_neg c1, if_neg c2, if_neg hs, if_neg c4, if_pos hs2]
      · right
        exact ⟨s1, s2, tl, rfl, by omega, by omega, by omega, by omega,
          DecodeRuneInString_three b s1 s2 x tl hx hlt hsz (by omega) (by omega) (by omega)
            (by omega)⟩

theorem decode_four_cases (b x : Nat) (bs : GoString) (hx : first b = x) (hlt : x < 0xF0)
    (hsz : x % 8 = 4) :
    DecodeRuneInString (b :: bs) = (RuneError, 1) ∨
      ∃ s1 s2 s3 tl, bs = s1 :: s2 :: s3 :: tl ∧ (acceptRanges (x / 16)).1 ≤ s1 ∧
        s1 ≤ (acceptRanges (x / 16)).2 ∧ 0x80 ≤ s2 ∧ s2 ≤ 0xBF ∧ 0x80 ≤ s3 ∧ s3 ≤ 0xBF ∧
        DecodeRuneInString (b :: bs) =
          (b % 8 * 262144 + s1 % 64 * 4096 + s2 % 64 * 64 + s3 % 64, 4) := by
  have c1 : ¬ 0xF0 ≤ x := Nat.not_le.mpr hlt
  have c4 : ¬ (4 ≤ 2) := by decide
  have c6 : ¬ (4 ≤ 3) := by decide
  rcases bs with _ | ⟨s1, _ | ⟨s2, _ | ⟨s3, tl⟩⟩⟩
  · left
    unfold DecodeRuneInString
    simp only [hx, hsz, List.length_cons, List.length_nil]
    rw [if_neg c1, if_pos (by decide)]
  · left
    unfold DecodeRuneInString
    simp only [hx, hsz, List.length_cons, List.length_nil]
    rw [if_neg c1, if_pos (by decide)]
  · left
    unfold DecodeRuneInString
    simp only [hx, hsz, List.length_cons, List.length_nil]
    rw [if_neg c1, if_pos (by decide)]
  · have c2 : ¬ (tl.length + 1 + 1 + 1 + 1 < 4) := by omega
    by_cases hs : s1 < (acceptRanges (x / 16)).1 ∨ (acceptRanges (x / 16)).2 < s1
    · left
      unfold DecodeRuneInString
      simp only [hx, hsz, List.getD_cons_zero, List.length_cons]
      rw [if_neg c1, if_neg c2, if_pos hs]
    · by_cases hs2 : s2 < 0x80 ∨ 0xBF < s2
      · left
        unfold DecodeRuneInString
        simp only [hx, hsz, List.getD_cons_zero, List.getD_cons_succ, List.length_cons]
        rw [if_neg c1, if_neg c2, if_neg hs, if_neg c4, if_pos hs2]
      · by_cases hs3 : s3 < 0x80 ∨ 0xBF < s3
        · left
          unfold DecodeRuneInString
          simp only [hx, hsz, List.getD_cons_zero, List.getD_cons_succ, List.length_cons]
          rw [if_neg c1, if_neg c2, if_neg hs, if_neg c4, if_neg hs2, if_neg c6, if_pos hs3]
        · right
          exact ⟨s1, s2, s3, tl, rfl, by omega, by omega, by omega, by omega, by omega,
            by omega,
            DecodeRuneInString_four b s1 s2 s3 x tl hx hlt hsz (by omega) (by omega) (by omega)
              (by omega) (by omega) (by omega)⟩


theorem first_invalid (b : Nat) (h : 0x80 ≤ b) (h2 : b < 0xC2 ∨ 0xF4 < b) : first b = 0xF1 := by
  unfold first
  rcases h2 with h2 | h2
  · rw [if_neg (Nat.not_lt.mpr h), if_pos h2]
  · have d1 : ¬ b < 0x80 := by omega
    have d2 : ¬ b < 0xC2 := by omega
    have d3 : ¬ b < 0xE0 := by omega
    have d4 : ¬ b = 0xE0 := by omega
    have d5 : ¬ b < 0xED := by omega
    have d6 : ¬ b = 0xED := by omega
    have d7 : ¬ b < 0xF0 := by omega
    have d8 : ¬ b = 0xF0 := by omega
    have d9 : ¬ b < 0xF4 := by omega
    have d10 : ¬ b = 0xF4 := by omega
    rw [if_neg d1, if_neg d2, if_neg d3, if_neg d4, if_neg d5, if_neg d6, if_neg d7, if_neg d8,
      if_neg d9, if_neg d10]

theorem decode_invalid_first (b : Nat) (bs : GoString) (h : first b = 0xF1) :
    DecodeRuneInString (b :: bs) = (RuneError, 1) := by
  unfold DecodeRuneInString
  simp only [h]
  rfl

/-- Every rune decoded from the front of a string is `RuneError` of width 1 or a scalar
value whose encoding is the front of the string. -/
theorem DecodeRuneInString_cases (b : Nat) (bs : GoString) :
    DecodeRuneInString (b :: bs) = (RuneError, 1) ∨
      ∃ r tl, (r < 0xD800 ∨ (0xDFFF < r ∧ r < 0x110000)) ∧ b :: bs = encodeRune r ++ tl ∧
        DecodeRuneInString (b :: bs) = (r, (encodeRune r).length) := by
  by_cases h1 : b < 0x80
  · right
    refine ⟨b, bs, by omega, ?_, ?_⟩
    · unfold encodeRune
      rw [if_pos h1]
      rfl
    · have := DecodeRuneInString_encodeRune b bs (by omega)
      unfold encodeRune at this ⊢
      rw [if_pos h1] at this ⊢
      exact this
  by_cases h2 : b < 0xC2
  · exact Or.inl (decode_invalid_first b bs (first_invalid b (by omega) (Or.inl h2)))
  by_cases h3 : 0xF4 < b
  · exact Or.inl (decode_invalid_first b bs (first_invalid b (by omega) (Or.inr h3)))
  have key : ∀ r tl, (r < 0xD800 ∨ (0xDFFF < r ∧ r < 0x110000)) → b :: bs = encodeRune r ++ tl →
      DecodeRuneInString (b :: bs) = (r, (encodeRune r).length) := by
    intro r tl hr he
    rw [he]
    exact DecodeRuneInString_encodeRune r tl hr
  by_cases h4 : b < 0xE0
  · rcases decode_two_cases b 0x02 bs (first_two b (by omega) h4) (by decide) (by decide) with
      h | ⟨s1, tl, hbs, ha1, ha2, _⟩
    · exact Or.inl h
    · right
      simp only [acceptRanges] at ha1 ha2
      have hr : ∀ r, r = b % 32 * 64 + s1 % 64 → encodeRune r = [b, s1] := by
        intro r hr
        unfold encodeRune
        rw [if_neg (by omega), if_pos (by omega)]
        simp only [List.cons.injEq, and_true]
        omega
      refine ⟨b % 32 * 64 + s1 % 64, tl, by omega, ?_, ?_⟩
      · rw [hr _ rfl, hbs]; rfl
      · exact key _ tl (by omega) (by rw [hr _ rfl, hbs]; rfl)
  by_cases h5 : b < 0xF0
  · have hx : ∃ x, first b = x ∧ x < 0xF0 ∧ x % 8 = 3 ∧
        (b = 0xE0 → 0xA0 ≤ (acceptRanges (x / 16)).1) ∧
        (b = 0xED → (acceptRanges (x / 16)).2 ≤ 0x9F) := by
      by_cases e0 : b = 0xE0
      · subst e0
        exact ⟨0x13, rfl, by decide, by decide, fun _ => by decide, fun h => by omega⟩
      · by_cases ed : b = 0xED
        · subst ed
          exact ⟨0x23, rfl, by decide, by decide, fun h => by omega, fun _ => by decide⟩
        · exact ⟨0x03, first_three b (by omega) h5 ed, by decide, by decide,
            fun h => absurd h e0, fun h => absurd h ed⟩
    obtain ⟨x, hx, hlt, hsz, hE0, hED⟩ := hx
    rcases decode_three_cases b x bs hx hlt hsz with h | ⟨s1, s2, tl, hbs, ha1, ha2, hb1, hb2, _⟩
    · exact Or.inl h
    · right
      have hb := acceptRanges_bounds (x / 16)
      have hr : ∀ r, r = b % 16 * 4096 + s1 % 64 * 64 + s2 % 64 →
          (r < 0xD800 ∨ (0xDFFF < r ∧ r < 0x110000)) ∧ encodeRune r = [b, s1, s2] := by
        intro r hr
        have hlo : b = 0xE0 → 0xA0 ≤ s1 := fun h => le_trans (hE0 h) ha1
        have hhi : b = 0xED → s1 ≤ 0x9F := fun h => le_trans ha2 (hED h)
        have hsc : r < 0xD800 ∨ (0xDFFF < r ∧ r < 0x110000) := by omega
        refine ⟨hsc, ?_⟩
        unfold encodeRune
        have n1 : ¬ r < 0x80 := by omega
        have n2 : ¬ r < 0x800 := by omega
        have n3 : ¬ ((0xD800 ≤ r ∧ r ≤ 0xDFFF) ∨ 0x10FFFF < r) := by omega
        rw [if_neg n1, if_neg n2, if_neg n3, if_pos (by omega)]
        simp only [List.cons.injEq, and_true]
        omega
      refine ⟨b % 16 * 4096 + s1 % 64 * 64 + s2 % 64, tl, (hr _ rfl).1, ?_, ?_⟩
      · rw [(hr _ rfl).2, hbs]; rfl
      · exact key _ tl (hr _ rfl).1 (by rw [(hr _ rfl).2, hbs]; rfl)
  · have hx : ∃ x, first b = x ∧ x < 0xF0 ∧ x % 8 = 4 ∧
        (b = 0xF0 → 0x90 ≤ (acceptRanges (x / 16)).1) ∧
        (b = 0xF4 → (acceptRanges (x / 16)).2 ≤ 0x8F) := by
      by_cases e0 : b = 0xF0
      · subst e0
        exact ⟨0x34, rfl, by decide, by decide, fun _ => by decide, fun h => by omega⟩
      · by_cases e4 : b = 0xF4
        · subst e4
          exact ⟨0x44, rfl, by decide, by decide, fun h => by omega, fun _ => by decide⟩
        · exact ⟨0x04, first_four b (by omega) (by omega), by decide, by decide,
            fun h => absurd h e0, fun h => absurd h e4⟩
    obtain ⟨x, hx, hlt, hsz, hF0, hF4⟩ := hx
    rcases decode_four_cases b x bs hx hlt hsz with
      h | ⟨s1, s2, s3, tl, hbs, ha1, ha2, hb1, hb2, hc1, hc2, _⟩
    · exact Or.inl h
    · right
      have hb := acceptRanges_bounds (x / 16)
      have hr : ∀ r, r = b % 8 * 262144 + s1 % 64 * 4096 + s2 % 64 * 64 + s3 % 64 →
          (r < 0xD800 ∨ (0xDFFF < r ∧ r < 0x110000)) ∧ encodeRune r = [b, s1, s2, s3] := by
        intro r hr
        have hlo : b = 0xF0 → 0x90 ≤ s1 := fun h => le_trans (hF0 h) ha1
        have hhi : b = 0xF4 → s1 ≤ 0x8F := fun h => le_trans ha2 (hF4 h)
        have hsc : r < 0xD800 ∨ (0xDFFF < r ∧ r < 0x110000) := by omega
        refine ⟨hsc, ?_⟩
        unfold encodeRune
        have n1 : ¬ r < 0x80 := by omega
        have n2 : ¬ r < 0x800 := by omega
        have n3 : ¬ ((0xD800 ≤ r ∧ r ≤ 0xDFFF) ∨ 0x10FFFF < r) := by omega
        have n4 : ¬ r < 0x10000 := by omega
        rw [if_neg n1, if_neg n2, if_neg n3, if_neg n4]
        simp only [List.cons.injEq, and_true]
        omega
      refine ⟨_, tl, (hr _ rfl).1, ?_, ?_⟩
      · rw [(hr _ rfl).2, hbs]; rfl
      · exact key _ tl (hr _ rfl).1 (by rw [(hr _ rfl).2, hbs]; rfl)

theorem decode_agree (b : Nat) (bs : GoString)
    (h : DecodeRuneInString (b :: bs) ≠ (RuneError, 1)) (t : GoString) :
    DecodeRuneInString ((b :: bs).take (DecodeRuneInString (b :: bs)).2 ++ t) =
      DecodeRuneInString (b :: bs) := by
  rcases DecodeRuneInString_cases b bs with h1 | ⟨r, tl, hr, he, hd⟩
  · exact absurd h1 h
  · rw [hd]
    simp only
    rw [he, List.take_left]
    exact DecodeRuneInString_encodeRune r t hr

theorem decode_head_runeStart (b : Nat) (bs : GoString)
    (h : DecodeRuneInString (b :: bs) ≠ (RuneError, 1)) : RuneStart b = true := by
  by_cases hb : 0x80 ≤ b ∧ b < 0xC0
  · exact absurd (decode_invalid_first b bs (first_invalid b hb.1 (Or.inl (by omega)))) h
  · simp [RuneStart, hb]

theorem encodeRune_shape (r : Nat) :
    encodeRune r = [r] ∨
      ∃ b0 c1 rest, encodeRune r = b0 :: c1 :: rest ∧ 0x80 ≤ c1 ∧ c1 < 0xC0 := by
  unfold encodeRune
  by_cases h1 : r < 0x80
  · rw [if_pos h1]
    exact Or.inl rfl
  rw [if_neg h1]
  by_cases h2 : r < 0x800
  · rw [if_pos h2]
    exact Or.inr ⟨_, _, _, rfl, by omega, by omega⟩
  rw [if_neg h2]
  by_cases h3 : (0xD800 ≤ r ∧ r ≤ 0xDFFF) ∨ 0x10FFFF < r
  · rw [if_pos h3]
    exact Or.inr ⟨_, _, _, rfl, by decide, by decide⟩
  rw [if_neg h3]
  by_cases h4 : r < 0x10000
  · rw [if_pos h4]
    exact Or.inr ⟨_, _, _, rfl, by omega, by omega⟩
  · rw [if_neg h4]
    exact Or.inr ⟨_, _, _, rfl, by omega, by omega⟩

/-- A byte followed by nothing, or by a byte that starts an encoding, is a rune of
width 1. -/
theorem decode_width_one (b : Nat) (t : GoString)
    (ht : ∀ h tl, t = h :: tl → RuneStart h = true) :
    (DecodeRuneInString (b :: t)).2 = 1 := by
  rcases DecodeRuneInString_cases b t with h1 | ⟨r, tl, _, he, hd⟩
  · rw [h1]
  · rw [hd]
    rcases encodeRune_shape r with h | ⟨b0, c1, rest, h, hc1, hc2⟩
    · rw [h]
      rfl
    · rw [h] at he
      simp only [List.cons_append, List.cons.injEq] at he
      have := ht c1 (rest ++ tl) he.2
      simp [RuneStart, hc1, hc2] at this

theorem IsSpace_RuneError : IsSpace RuneError = false := by
  decide

theorem runes_nil : runes [] = [] := rfl

theorem runes_step (x y : GoString) (r : Nat) (hx : x ≠ [])
    (h : ∀ t, DecodeRuneInString (x ++ t) = (r, x.length)) :
    runes (x ++ y) = r :: runes y := by
  cases x with
  | nil => exact absurd rfl hx
  | cons b bs =>
    have hd := h y
    rw [List.cons_append] at hd ⊢
    rw [runes_cons, hd]
    simp only
    rw [← List.cons_append, List.drop_left]

theorem runes_append_of_spaces_aux (n : Nat) (a b : GoString) (hn : a.length ≤ n)
    (ha : ∀ r ∈ runes a, IsSpace r = true) :
    runes (a ++ b) = runes a ++ runes b := by
  induction n generalizing a with
  | zero =>
    have : a = [] := List.length_eq_zero.mp (Nat.le_zero.mp hn)
    subst this
    simp [runes_nil]
  | succ n ih =>
    cases a with
    | nil => simp [runes_nil]
    | cons c cs =>
      have hw := DecodeRuneInString_width c cs
      have hrc := runes_cons c cs
      have hsp : IsSpace (DecodeRuneInString (c :: cs)).1 = true :=
        ha _ (by rw [hrc]; exact List.mem_cons_self _ _)
      have hne : DecodeRuneInString (c :: cs) ≠ (RuneError, 1) := by
        intro hc
        rw [hc, IsSpace_RuneError] at hsp
        cases hsp
      have hag := decode_agree c cs hne
      have hlen : ((c :: cs).take (DecodeRuneInString (c :: cs)).2).length =
          (DecodeRuneInString (c :: cs)).2 := by
        rw [List.length_take, List.length_cons]
        omega
      have hxne : (c :: cs).take (DecodeRuneInString (c :: cs)).2 ≠ [] := by
        intro hc
        rw [hc] at hlen
        simp only [List.length_nil] at hlen
        omega
      have hsplit : c :: cs = (c :: cs).take (DecodeRuneInString (c :: cs)).2 ++
          (c :: cs).drop (DecodeRuneInString (c :: cs)).2 := (List.take_append_drop _ _).symm
      have hstep : ∀ y, runes ((c :: cs).take (DecodeRuneInString (c :: cs)).2 ++ y) =
          (DecodeRuneInString (c :: cs)).1 :: runes y := by
        intro y
        apply runes_step _ _ _ hxne
        intro t
        rw [hag t, hlen]
      have hrest : ∀ r ∈ runes ((c :: cs).drop (DecodeRuneInString (c :: cs)).2),
          IsSpace r = true := by
        intro r hr
        apply ha
        rw [hrc]
        exact List.mem_cons_of_mem _ hr
      have hih := ih ((c :: cs).drop (DecodeRuneInString (c :: cs)).2)
        (by
          rw [List.length_drop]
          rw [List.length_cons] at hn ⊢
          omega)
        hrest
      calc runes (c :: cs ++ b)
          = runes ((c :: cs).take (DecodeRuneInString (c :: cs)).2 ++
              ((c :: cs).drop (DecodeRuneInString (c :: cs)).2 ++ b)) := by
            rw [← List.append_assoc, ← hsplit]
        _ = (DecodeRuneInString (c :: cs)).1 ::
              runes ((c :: cs).drop (DecodeRuneInString (c :: cs)).2 ++ b) := hstep _
        _ = (DecodeRuneInString (c :: cs)).1 ::
              (runes ((c :: cs).drop (DecodeRuneInString (c :: cs)).2) ++ runes b) := by
            rw [hih]
        _ = runes (c :: cs) ++ runes b := by
            rw [hrc]
            rfl

/-- When every rune of `a` is a space, the runes of `a ++ b` are those of `a` then those
of `b`. -/
theorem runes_append_of_spaces (a b : GoString) (ha : ∀ r ∈ runes a, IsSpace r = true) :
    runes (a ++ b) = runes a ++ runes b :=
  runes_append_of_spaces_aux a.length a b (le_refl _) ha

theorem runes_take_step (c : Nat) (cs y : GoString)
    (hne : DecodeRuneInString (c :: cs) ≠ (RuneError, 1)) :
    runes ((c :: cs).take (DecodeRuneInString (c :: cs)).2 ++ y) =
      (DecodeRuneInString (c :: cs)).1 :: runes y := by
  have hw := DecodeRuneInString_width c cs
  have hlen : ((c :: cs).take (DecodeRuneInString (c :: cs)).2).length =
      (DecodeRuneInString (c :: cs)).2 := by
    rw [List.length_take, List.length_cons]
    omega
  have hxne : (c :: cs).take (DecodeRuneInString (c :: cs)).2 ≠ [] := by
    intro hc
    rw [hc] at hlen
    simp only [List.length_nil] at hlen
    omega
  apply runes_step _ _ _ hxne
  intro t
  rw [decode_agree c cs hne t, hlen]

theorem not_space_of_error (d : Nat × Nat) (h : IsSpace d.1 = true) : d ≠ (RuneError, 1) := by
  intro hc
  rw [hc, IsSpace_RuneError] at h
  cases h

theorem indexFuncNotSpace_spec (fuel : Nat) (s : GoString) (i : Int) (h : s.length ≤ fuel) :
    (indexFuncNotSpace fuel s i = -1 ∧ ∀ r ∈ runes s, IsSpace r = true) ∨
      ∃ k : Nat, indexFuncNotSpace fuel s i = i + k ∧ k < s.length ∧
        (∀ r ∈ runes (s.take k), IsSpace r = true) ∧
        IsSpace (DecodeRuneInString (s.drop k)).1 = false := by
  induction fuel generalizing s i with
  | zero =>
    have : s = [] := List.length_eq_zero.mp (Nat.le_zero.mp h)
    subst this
    left
    exact ⟨rfl, by simp [runes_nil]⟩
  | succ fuel ih =>
    cases s with
    | nil =>
      left
      exact ⟨rfl, by simp [runes_nil]⟩
    | cons b bs =>
      have hw := DecodeRuneInString_width b bs
      by_cases hsp : IsSpace (DecodeRuneInString (b :: bs)).1 = false
      · right
        refine ⟨0, ?_, by simp, by simp [runes_nil], by simpa using hsp⟩
        simp only [indexFuncNotSpace, hsp, if_true]
        simp
      · have hsp2 : IsSpace (DecodeRuneInString (b :: bs)).1 = true := by simpa using hsp
        have hne := not_space_of_error _ hsp2
        have hrec : indexFuncNotSpace (fuel + 1) (b :: bs) i =
            indexFuncNotSpace fuel ((b :: bs).drop (DecodeRuneInString (b :: bs)).2)
              (i + (DecodeRuneInString (b :: bs)).2) := by
          simp only [indexFuncNotSpace]
          rw [if_neg hsp]
        have hlen : ((b :: bs).drop (DecodeRuneInString (b :: bs)).2).length ≤ fuel := by
          rw [List.length_drop]
          rw [List.length_cons] at h ⊢
          omega
        rcases ih _ (i + (DecodeRuneInString (b :: bs)).2) hlen with ⟨h1, h2⟩ | ⟨k, h1, h2, h3, h4⟩
        · left
          refine ⟨by rw [hrec, h1], ?_⟩
          intro r hr
          rw [runes_cons] at hr
          rcases List.mem_cons.mp hr with hr | hr
          · rw [hr]; exact hsp2
          · exact h2 r hr
        · right
          refine ⟨(DecodeRuneInString (b :: bs)).2 + k, ?_, ?_, ?_, ?_⟩
          · rw [hrec, h1]
            push_cast
            ring
          · rw [List.length_drop] at h2
            omega
          · rw [List.take_add, runes_take_step b bs _ hne]
            intro r hr
            rcases List.mem_cons.mp hr with hr | hr
            · rw [hr]; exact hsp2
            · exact h3 r hr
          · rw [← List.drop_drop]
            exact h4

/-- The function `TrimLeftFunc` removes a run of white space runes from the front, and what
is left does not start with white space. -/
theorem TrimLeftFunc_spec (s : GoString) :
    ∃ lead, s = lead ++ TrimLeftFunc s ∧ (∀ r ∈ runes lead, IsSpace r = true) ∧
      (TrimLeftFunc s ≠ [] → IsSpace (DecodeRuneInString (TrimLeftFunc s)).1 = false) := by
  rcases indexFuncNotSpace_spec s.length s 0 (le_refl _) with ⟨h1, h2⟩ | ⟨k, h1, h2, h3, h4⟩
  · refine ⟨s, ?_, h2, ?_⟩
    · simp [TrimLeftFunc, h1]
    · simp [TrimLeftFunc, h1]
  · have hk : indexFuncNotSpace s.length s 0 ≠ -1 := by
      rw [h1]
      omega
    have hT : TrimLeftFunc s = s.drop k := by
      simp only [TrimLeftFunc, hk, if_false, h1]
      simp
    refine ⟨s.take k, ?_, h3, ?_⟩
    · rw [hT, List.take_append_drop]
    · intro _
      rw [hT]
      exact h4

theorem decodeLast_cases (t : GoString) (h : t ≠ []) :
    (t.getD (t.length - 1) 0 < 0x80 ∧
        DecodeLastRuneInString t = (t.getD (t.length - 1) 0, 1)) ∨
      (0x80 ≤ t.getD (t.length - 1) 0 ∧ DecodeLastRuneInString t = (RuneError, 1)) ∨
      (0x80 ≤ t.getD (t.length - 1) 0 ∧ ∃ start : Nat, start < t.length ∧
        DecodeLastRuneInString t = DecodeRuneInString (t.drop start) ∧
        start + (DecodeRuneInString (t.drop start)).2 = t.length) := by
  have hpos : 0 < t.length := List.length_pos.mpr h
  have key : ∀ st : Int, 0 ≤ st → st < t.length →
      (if st + ((DecodeRuneInString (t.drop st.toNat)).2 : Int) ≠ (t.length : Int) then
          (RuneError, 1) else DecodeRuneInString (t.drop st.toNat)) = (RuneError, 1) ∨
        ∃ start : Nat, start < t.length ∧
          (if st + ((DecodeRuneInString (t.drop st.toNat)).2 : Int) ≠ (t.length : Int) then
            (RuneError, 1) else DecodeRuneInString (t.drop st.toNat)) =
              DecodeRuneInString (t.drop start) ∧
          start + (DecodeRuneInString (t.drop start)).2 = t.length := by
    intro st h0 h1
    by_cases hc : st + ((DecodeRuneInString (t.drop st.toNat)).2 : Int) ≠ (t.length : Int)
    · left
      rw [if_pos hc]
    · right
      rw [if_neg hc]
      simp only [ne_eq, Decidable.not_not] at hc
      exact ⟨st.toNat, by omega, rfl, by omega⟩
  unfold DecodeLastRuneInString
  simp only
  rw [if_neg (by omega)]
  by_cases h1 : t.getD (t.length - 1) 0 < 0x80
  · left
    rw [if_pos h1]
    exact ⟨h1, rfl⟩
  · right
    rw [if_neg h1]
    have hle := lastRuneStart_le t (if (t.length : Int) - 4 < 0 then 0 else (t.length : Int) - 4)
      4 ((t.length : Int) - 2)
    generalize (if (t.length : Int) - 4 < 0 then 0 else (t.length : Int) - 4) = lim at hle ⊢
    have hst0 : 0 ≤ (if lastRuneStart t lim 4 ((t.length : Int) - 2) < 0 then 0
        else lastRuneStart t lim 4 ((t.length : Int) - 2)) := by
      split_ifs <;> omega
    have hst1 : (if lastRuneStart t lim 4 ((t.length : Int) - 2) < 0 then 0
        else lastRuneStart t lim 4 ((t.length : Int) - 2)) < t.length := by
      split_ifs <;> omega
    rcases key _ hst0 hst1 with hk | hk
    · exact Or.inl ⟨by omega, hk⟩
    · exact Or.inr ⟨by omega, hk⟩

theorem drop_last_singleton (t : GoString) (h : t ≠ []) :
    t.drop (t.length - 1) = [t.getD (t.length - 1) 0] := by
  have hs := take_append_last t h
  have hl : (t.take (t.length - 1)).length = t.length - 1 := by
    rw [List.length_take]
    omega
  have hd := @List.drop_left' Nat (t.take (t.length - 1)) [t.getD (t.length - 1) 0]
    (t.length - 1) hl
  rw [← hs] at hd
  exact hd

theorem decode_ascii (c : Nat) (cs : GoString) (h : c < 0x80) :
    DecodeRuneInString (c :: cs) = (c, 1) := by
  unfold DecodeRuneInString
  simp only [first_ascii c h]
  rfl

/-- When the last rune of `t` is a space, the bytes it was decoded from are an encoding
that reads the same with anything after it, and they start with a first byte. -/
theorem decodeLast_space (t : GoString) (h : t ≠ [])
    (hsp : IsSpace (DecodeLastRuneInString t).1 = true) :
    t.drop (t.length - (DecodeLastRuneInString t).2) ≠ [] ∧
      (∀ u, DecodeRuneInString (t.drop (t.length - (DecodeLastRuneInString t).2) ++ u) =
        ((DecodeLastRuneInString t).1,
          (t.drop (t.length - (DecodeLastRuneInString t).2)).length)) ∧
      (∀ b tl, t.drop (t.length - (DecodeLastRuneInString t).2) = b :: tl →
        RuneStart b = true) := by
  rcases decodeLast_cases t h with ⟨h1, h2⟩ | ⟨_, h2⟩ | ⟨_, start, h1, h2, h3⟩
  · rw [h2]
    simp only
    rw [drop_last_singleton t h]
    refine ⟨by simp, ?_, ?_⟩
    · intro u
      exact decode_ascii _ _ h1
    · intro b tl hb
      simp only [List.cons.injEq] at hb
      rw [← hb.1]
      have : ¬ (0x80 ≤ t.getD (t.length - 1) 0 ∧ t.getD (t.length - 1) 0 < 0xC0) := by omega
      unfold RuneStart
      exact decide_eq_true this
  · rw [h2, IsSpace_RuneError] at hsp
    cases hsp
  · rw [h2] at hsp ⊢
    have hn : t.length - (DecodeRuneInString (t.drop start)).2 = start := by omega
    rw [hn]
    have hlen : (t.drop start).length = (DecodeRuneInString (t.drop start)).2 := by
      rw [List.length_drop]
      omega
    rcases hx : t.drop start with _ | ⟨c, cs⟩
    · have hl0 := congrArg List.length hx
      rw [List.length_drop, List.length_nil] at hl0
      omega
    · rw [hx] at hsp hlen
      have hne := not_space_of_error _ hsp
      refine ⟨by simp, ?_, ?_⟩
      · intro u
        have hag := decode_agree c cs hne u
        rw [← hlen, List.take_length] at hag
        rw [hag]
        exact Prod.ext rfl hlen.symm
      · intro b tl hb
        simp only [List.cons.injEq] at hb
        rw [← hb.1]
        exact decode_head_runeStart c cs hne

/-- The width `TrimRightFunc` reads forward at the start of the last rune is the width
`DecodeLastRuneInString` found backward, when what follows is empty or starts with a first
byte. -/
theorem forward_width_eq_backward (t trail : GoString) (h : t ≠ [])
    (htr : ∀ b tl, trail = b :: tl → RuneStart b = true) :
    (if 0x80 ≤ (t ++ trail).getD (t.length - (DecodeLastRuneInString t).2) 0 then
        (DecodeRuneInString ((t ++ trail).drop (t.length - (DecodeLastRuneInString t).2))).2
      else 1) = (DecodeLastRuneInString t).2 := by
  have hpos : 0 < t.length := List.length_pos.mpr h
  rcases decodeLast_cases t h with ⟨h1, h2⟩ | ⟨h1, h2⟩ | ⟨_, start, h1, h2, h3⟩
  · rw [h2]
    simp only
    rw [List.getD_append _ _ _ _ (by omega), if_neg (by omega)]
  · rw [h2]
    simp only
    rw [List.getD_append _ _ _ _ (by omega), if_pos h1,
      List.drop_append_of_le_length (by omega), drop_last_singleton t h]
    exact decode_width_one _ _ htr
  · rw [h2]
    have hn : t.length - (DecodeRuneInString (t.drop start)).2 = start := by omega
    rw [hn, List.drop_append_of_le_length (by omega)]
    have hlen : (t.drop start).length = (DecodeRuneInString (t.drop start)).2 := by
      rw [List.length_drop]
      omega
    have hget : (t ++ trail).getD start 0 = (t.drop start).getD 0 0 := by
      rw [List.getD_append _ _ _ _ h1]
      simp [List.getD_eq_getElem?_getD]
    rw [hget]
    rcases hx : t.drop start with _ | ⟨c, cs⟩
    · have hl0 := congrArg List.length hx
      rw [List.length_drop, List.length_nil] at hl0
      omega
    · rw [hx] at hlen
      simp only [List.getD_cons_zero]
      by_cases hc : 0x80 ≤ c
      · rw [if_pos hc]
        by_cases hv : DecodeRuneInString (c :: cs) = (RuneError, 1)
        · rw [hv] at hlen ⊢
          simp only [List.length_cons] at hlen
          have hcs : cs = [] := List.length_eq_zero.mp (by omega)
          subst hcs
          exact decode_width_one c trail htr
        · have hag := decode_agree c cs hv trail
          rw [← hlen, List.take_length] at hag
          rw [hag]
      · rw [if_neg hc, decode_ascii c cs (by omega)]

theorem drop_eq_take_drop (s : GoString) (n k : Nat) (h : n ≤ k) (hk : k ≤ s.length) :
    s.drop n = (s.take k).drop n ++ s.drop k := by
  have hd := @List.drop_append_of_le_length Nat (s.take k) (s.drop k) n
    (by rw [List.length_take]; omega)
  rw [List.take_append_drop] at hd
  exact hd

theorem lastIndexFuncNotSpace_spec (s : GoString) (fuel i : Nat) (hi : i ≤ s.length)
    (hf : i ≤ fuel) (hQ1 : ∀ r ∈ runes (s.drop i), IsSpace r = true)
    (hQ2 : ∀ b tl, s.drop i = b :: tl → RuneStart b = true) :
    (lastIndexFuncNotSpace s fuel i = -1 ∧ ∀ r ∈ runes s, IsSpace r = true) ∨
      ∃ i0 : Nat, 0 < i0 ∧ i0 ≤ s.length ∧ (∀ r ∈ runes (s.drop i0), IsSpace r = true) ∧
        (∀ b tl, s.drop i0 = b :: tl → RuneStart b = true) ∧
        IsSpace (DecodeLastRuneInString (s.take i0)).1 = false ∧
        lastIndexFuncNotSpace s fuel i =
          ((i0 - (DecodeLastRuneInString (s.take i0)).2 : Nat) : Int) := by
  induction fuel generalizing i with
  | zero =>
    have : i = 0 := Nat.le_zero.mp hf
    subst this
    left
    exact ⟨rfl, by simpa using hQ1⟩
  | succ fuel ih =>
    cases i with
    | zero =>
      left
      refine ⟨by simp [lastIndexFuncNotSpace], by simpa using hQ1⟩
    | succ i =>
      have hne : s.take (i + 1) ≠ [] := by
        intro hc
        have := congrArg List.length hc
        simp only [List.length_take, List.length_nil] at this
        omega
      have hlt : (s.take (i + 1)).length = i + 1 := by
        rw [List.length_take, Nat.min_eq_left hi]
      have hw := DecodeLastRuneInString_width (s.take (i + 1)) hne
      rw [hlt] at hw
      by_cases hsp : IsSpace (DecodeLastRuneInString (s.take (i + 1))).1 = false
      · right
        refine ⟨i + 1, by omega, hi, hQ1, hQ2, hsp, ?_⟩
        simp only [lastIndexFuncNotSpace]
        rw [if_neg (Nat.succ_ne_zero i), if_pos hsp]
      · have hsp2 : IsSpace (DecodeLastRuneInString (s.take (i + 1))).1 = true := by
          simpa using hsp
        have hrec : lastIndexFuncNotSpace s (fuel + 1) (i + 1) =
            lastIndexFuncNotSpace s fuel
              (i + 1 - (DecodeLastRuneInString (s.take (i + 1))).2) := by
          simp only [lastIndexFuncNotSpace]
          rw [if_neg (Nat.succ_ne_zero i), if_neg hsp]
        obtain ⟨hx1, hx2, hx3⟩ := decodeLast_space (s.take (i + 1)) hne hsp2
        rw [hlt] at hx1 hx2 hx3
        have hdrop : s.drop (i + 1 - (DecodeLastRuneInString (s.take (i + 1))).2) =
            (s.take (i + 1)).drop (i + 1 - (DecodeLastRuneInString (s.take (i + 1))).2) ++
              s.drop (i + 1) :=
          drop_eq_take_drop s _ (i + 1) (by omega) hi
        have hQ1n : ∀ r ∈ runes (s.drop (i + 1 - (DecodeLastRuneInString (s.take (i + 1))).2)),
            IsSpace r = true := by
          rw [hdrop, runes_step _ _ _ hx1 hx2]
          intro r hr
          rcases List.mem_cons.mp hr with hr | hr
          · rw [hr]; exact hsp2
          · exact hQ1 r hr
        have hQ2n : ∀ b tl,
            s.drop (i + 1 - (DecodeLastRuneInString (s.take (i + 1))).2) = b :: tl →
              RuneStart b = true := by
          intro b tl hb
          rw [hdrop] at hb
          rcases hxx : (s.take (i + 1)).drop
              (i + 1 - (DecodeLastRuneInString (s.take (i + 1))).2) with _ | ⟨c, cs⟩
          · exact absurd hxx hx1
          · rw [hxx] at hb
            simp only [List.cons_append, List.cons.injEq] at hb
            rw [← hb.1]
            exact hx3 c cs hxx
        rcases ih (i + 1 - (DecodeLastRuneInString (s.take (i + 1))).2) (by omega) (by omega)
          hQ1n hQ2n with ⟨h1, h2⟩ | ⟨i0, h1, h2, h3, h4, h5, h6⟩
        · left
          exact ⟨by rw [hrec, h1], h2⟩
        · right
          exact ⟨i0, h1, h2, h3, h4, h5, by rw [hrec, h6]⟩

/-- The function `TrimRightFunc` removes a run of white space runes from the back, and what
is left does not end with white space. -/
theorem TrimRightFunc_spec (s : GoString) :
    ∃ trail, s = TrimRightFunc s ++ trail ∧ (∀ r ∈ runes trail, IsSpace r = true) ∧
      (TrimRightFunc s ≠ [] →
        IsSpace (DecodeLastRuneInString (TrimRightFunc s)).1 = false) := by
  rcases lastIndexFuncNotSpace_spec s s.length s.length (le_refl _) (le_refl _)
      (by simp [runes_nil]) (by simp) with ⟨h1, h2⟩ | ⟨i0, h1, h2, h3, h4, h5, h6⟩
  · have hT : TrimRightFunc s = [] := by
      simp [TrimRightFunc, h1]
    exact ⟨s, by rw [hT]; rfl, h2, fun h => absurd hT h⟩
  · have hne : s.take i0 ≠ [] := by
      intro hc
      have := congrArg List.length hc
      simp only [List.length_take, List.length_nil] at this
      omega
    have hlt : (s.take i0).length = i0 := by
      rw [List.length_take, Nat.min_eq_left h2]
    have hw := DecodeLastRuneInString_width (s.take i0) hne
    rw [hlt] at hw
    have hfw := forward_width_eq_backward (s.take i0) (s.drop i0) hne h4
    rw [List.take_append_drop, hlt] at hfw
    have hT : TrimRightFunc s = s.take i0 := by
      simp only [TrimRightFunc, h6]
      congr 1
      by_cases hc : 0x80 ≤ s.getD (i0 - (DecodeLastRuneInString (s.take i0)).2) 0
      · rw [if_pos hc] at hfw
        simp only [Int.toNat_ofNat, Int.natCast_nonneg, true_and, hc, if_true]
        omega
      · rw [if_neg hc] at hfw
        simp only [Int.toNat_ofNat, Int.natCast_nonneg, true_and, hc, if_false]
        omega
    refine ⟨s.drop i0, by rw [hT, List.take_append_drop], h3, ?_⟩
    intro _
    rw [hT]
    exact h5

theorem decode_prefix (t rest : GoString) (h : t ≠ []) :
    DecodeRuneInString t = (RuneError, 1) ∨
      DecodeRuneInString (t ++ rest) = DecodeRuneInString t := by
  cases t with
  | nil => exact absurd rfl h
  | cons c cs =>
    by_cases hv : DecodeRuneInString (c :: cs) = (RuneError, 1)
    · exact Or.inl hv
    · right
      have hag := decode_agree c cs hv
        ((c :: cs).drop (DecodeRuneInString (c :: cs)).2 ++ rest)
      rw [← List.append_assoc, List.take_append_drop] at hag
      exact hag

theorem first_rune_of_prefix (t rest : GoString) (h : t ≠ [])
    (hsp : IsSpace (DecodeRuneInString (t ++ rest)).1 = false) :
    IsSpace (DecodeRuneInString t).1 = false := by
  rcases decode_prefix t rest h with h1 | h1
  · rw [h1]
    exact IsSpace_RuneError
  · rw [← h1]
    exact hsp

/-- The function `TrimFunc` with `unicode.IsSpace` removes a run of white space runes at
each end, and what is left neither starts nor ends with white space. -/
theorem TrimFunc_spec (s : GoString) :
    ∃ lead trail, s = lead ++ TrimFunc s ++ trail ∧
      (∀ r ∈ runes lead, IsSpace r = true) ∧ (∀ r ∈ runes trail, IsSpace r = true) ∧
      (TrimFunc s ≠ [] →
        IsSpace (DecodeRuneInString (TrimFunc s)).1 = false ∧
        IsSpace (DecodeLastRuneInString (TrimFunc s)).1 = false) := by
  obtain ⟨lead, hl1, hl2, hl3⟩ := TrimLeftFunc_spec s
  obtain ⟨trail, hr1, hr2, hr3⟩ := TrimRightFunc_spec (TrimLeftFunc s)
  refine ⟨lead, trail, ?_, hl2, hr2, ?_⟩
  · show s = lead ++ TrimRightFunc (TrimLeftFunc s) ++ trail
    rw [List.append_assoc, ← hr1]
    exact hl1
  · intro hne
    have hne2 : TrimRightFunc (TrimLeftFunc s) ≠ [] := hne
    have hv : TrimLeftFunc s ≠ [] := by
      intro hc
      have h0 : TrimRightFunc (TrimLeftFunc s) ++ trail = [] := by
        rw [← hr1]
        exact hc
      exact hne2 (List.append_eq_nil.mp h0).1
    refine ⟨?_, hr3 hne2⟩
    apply first_rune_of_prefix (TrimRightFunc (TrimLeftFunc s)) trail hne2
    rw [← hr1]
    exact hl3 hv

theorem IsSpace_ascii (c : Nat) (h : c < 0x80) : IsSpace c = asciiSpace c := by
  unfold IsSpace asciiSpace
  rw [if_pos (by omega)]
  have h1 : ¬ c = 0x85 := by omega
  have h2 : ¬ c = 0xA0 := by omega
  simp [h1, h2]

theorem runes_ascii_cons (c : Nat) (cs : GoString) (h : c < 0x80) :
    runes (c :: cs) = c :: runes cs := by
  rw [runes_cons, decode_ascii c cs h]
  rfl

theorem decodeLast_ascii (s : GoString) (h : s ≠ []) (hc : s.getD (s.length - 1) 0 < 0x80) :
    DecodeLastRuneInString s = (s.getD (s.length - 1) 0, 1) := by
  rcases decodeLast_cases s h with ⟨_, h2⟩ | ⟨h1, _⟩ | ⟨h1, _⟩
  · exact h2
  · omega
  · omega

theorem trimSpaceRight_spec (fuel : Nat) (s : GoString) (hf : s.length ≤ fuel) :
    ∃ trail, s = trimSpaceRight fuel s ++ trail ∧ (∀ r ∈ runes trail, IsSpace r = true) ∧
      (trimSpaceRight fuel s ≠ [] →
        IsSpace (DecodeLastRuneInString (trimSpaceRight fuel s)).1 = false) := by
  induction fuel generalizing s with
  | zero =>
    have : s = [] := List.length_eq_zero.mp (Nat.le_zero.mp hf)
    subst this
    exact ⟨[], rfl, by simp [runes_nil], fun h => absurd rfl h⟩
  | succ fuel ih =>
    by_cases he : s = []
    · subst he
      exact ⟨[], by simp [trimSpaceRight], by simp [runes_nil],
        fun h => absurd (by simp [trimSpaceRight]) h⟩
    · have hsplit := take_append_last s he
      have hpos : 0 < s.length := List.length_pos.mpr he
      by_cases hc : 0x80 ≤ s.getD (s.length - 1) 0
      · have hrec : trimSpaceRight (fuel + 1) s = TrimRightFunc s := by
          simp only [trimSpaceRight, he, if_false]
          rw [if_pos hc]
        rw [hrec]
        exact TrimRightFunc_spec s
      · by_cases hsp : asciiSpace (s.getD (s.length - 1) 0) = true
        · have hrec : trimSpaceRight (fuel + 1) s =
              trimSpaceRight fuel (s.take (s.length - 1)) := by
            simp only [trimSpaceRight, he, if_false, hsp, if_true]
            rw [if_neg hc]
          obtain ⟨trail, h1, h2, h3⟩ := ih (s.take (s.length - 1))
            (by
              rw [List.length_take]
              omega)
          refine ⟨trail ++ [s.getD (s.length - 1) 0], ?_, ?_, ?_⟩
          · rw [hrec, ← List.append_assoc, ← h1]
            exact hsplit
          · rw [runes_append_of_spaces _ _ h2, runes_ascii_cons _ _ (by omega), runes_nil]
            intro r hr
            rcases List.mem_append.mp hr with hr | hr
            · exact h2 r hr
            · rw [List.mem_singleton.mp hr, IsSpace_ascii _ (by omega)]
              exact hsp
          · rw [hrec]
            exact h3
        · have hrec : trimSpaceRight (fuel + 1) s = s := by
            simp only [trimSpaceRight, he, if_false, hsp]
            rw [if_neg hc]
            rfl
          refine ⟨[], by rw [hrec]; simp, by simp [runes_nil], ?_⟩
          intro _
          rw [hrec, decodeLast_ascii s he (by omega)]
          simp only
          rw [IsSpace_ascii _ (by omega)]
          simpa using hsp

/-- The function `strings.TrimSpace`, for every byte string: the string is a run of white
space runes, the result, and a run of white space runes, and the result neither starts nor
ends with a white space rune. -/
theorem TrimSpace_spec (s : GoString) :
    ∃ lead trail, s = lead ++ TrimSpace s ++ trail ∧
      (∀ r ∈ runes lead, IsSpace r = true) ∧ (∀ r ∈ runes trail, IsSpace r = true) ∧
      (TrimSpace s ≠ [] →
        IsSpace (DecodeRuneInString (TrimSpace s)).1 = false ∧
        IsSpace (DecodeLastRuneInString (TrimSpace s)).1 = false) := by
  induction s with
  | nil => exact ⟨[], [], by simp [TrimSpace], by simp [runes_nil], by simp [runes_nil],
      fun h => absurd (by simp [TrimSpace]) h⟩
  | cons c cs ih =>
    by_cases hc : 0x80 ≤ c
    · have hrec : TrimSpace (c :: cs) = TrimFunc (c :: cs) := by
        simp only [TrimSpace]
        rw [if_pos hc]
      rw [hrec]
      exact TrimFunc_spec (c :: cs)
    · by_cases hsp : asciiSpace c = true
      · have hrec : TrimSpace (c :: cs) = TrimSpace cs := by
          simp only [TrimSpace, hsp, if_true]
          rw [if_neg hc]
        obtain ⟨lead, trail, h1, h2, h3, h4⟩ := ih
        refine ⟨c :: lead, trail, ?_, ?_, h3, ?_⟩
        · rw [hrec]
          simp only [List.cons_append, List.cons.injEq, true_and]
          exact h1
        · rw [runes_ascii_cons c lead (by omega)]
          intro r hr
          rcases List.mem_cons.mp hr with hr | hr
          · rw [hr, IsSpace_ascii c (by omega)]
            exact hsp
          · exact h2 r hr
        · rw [hrec]
          exact h4
      · have hrec : TrimSpace (c :: cs) = trimSpaceRight (c :: cs).length (c :: cs) := by
          simp only [TrimSpace, hsp]
          rw [if_neg hc]
          rfl
        obtain ⟨trail, h1, h2, h3⟩ := trimSpaceRight_spec (c :: cs).length (c :: cs) (le_refl _)
        rw [hrec]
        refine ⟨[], trail, by simpa using h1, by simp [runes_nil], h2, ?_⟩
        intro hne
        refine ⟨?_, h3 hne⟩
        rcases hres : trimSpaceRight (c :: cs).length (c :: cs) with _ | ⟨x, xs⟩
        · exact absurd hres hne
        · rw [hres] at h1
          simp only [List.cons_append, List.cons.injEq] at h1
          rw [← h1.1, decode_ascii c xs (by omega)]
          simp only
          rw [IsSpace_ascii c (by omega)]
          simpa using hsp

/-- C2, as stated, fails: for the model output `""a""` the handler stores `a`, two quotes
removed from each end, where one layer of quotes removed gives `"a"`. -/
theorem generateHandler_strips_more_than_one_layer :
    (generateHandler (exampleWorld (goStr "\"\"a\"\"")) (request "POST" [])).2 =
      [Event.InvokeModel ⟨goStr "request", goStr "amazon.titan-text-lite-v1",
          goStr "application/json", goStr "application/json"⟩,
        Event.addTodo (goStr "a"),
        Event.PutItem (goStr "todos")
          [("Id", .S (goStr "123e4567-e89b-12d3-a456-426614174000")),
            ("Text", .S (goStr "a")), ("CreatedAtEpoch", .N (goStr "1700000000"))]] ∧
    TrimSpace (goStr "\"\"a\"\"") = [quote, quote] ++ goStr "a" ++ [quote, quote] ∧
    stripOneQuoteLayer (TrimSpace (goStr "\"\"a\"\"")) = goStr "\"a\"" ∧
    Event.addTodo (stripOneQuoteLayer (TrimSpace (goStr "\"\"a\"\""))) ∉
      (generateHandler (exampleWorld (goStr "\"\"a\"\"")) (request "POST" [])).2 := by
  decide

/-- C2, amended: when the model answers with at least one result, the text
`generateHandler` passes to `addTodo` is the first `outputText` with leading and trailing
white space stripped (`strings.TrimSpace`) and then every leading and every trailing
double quote removed (`strings.Trim`), however many there are.  For every `outputText`:
it is a run of white space runes (`unicode.IsSpace`), the stripped text, and a run of
white space runes, and the stripped text neither starts nor ends with a white space rune;
the stripped text is a run of quotes, the stored text, and a run of quotes, and the stored
text neither starts nor ends with a quote.  (For an ASCII output the white space runes are
the six ASCII space bytes.) -/
theorem generateHandler_trims_space_then_all_quotes (w : World) (r : Request)
    (payload body : GoString) (response : TitanTextResponse) (result : TitanTextResult)
    (rest : List TitanTextResult)
    (hPost : r.Method = MethodPost) (hm : w.jsonMarshal titanRequest = .ok payload)
    (hi : w.InvokeModel ⟨payload, w.bedrockModelName, goStr "application/json",
      goStr "application/json"⟩ = .ok body)
    (hu : w.jsonUnmarshal body = .ok response) (hr : response.Results = result :: rest) :
    ∃ stored pre post,
      (generateHandler w r).2 =
        [Event.InvokeModel ⟨payload, w.bedrockModelName, goStr "application/json",
            goStr "application/json"⟩,
          Event.addTodo stored,
          Event.PutItem w.tableName
            [("Id", .S w.newUUID), ("Text", .S stored),
              ("CreatedAtEpoch", .N (FormatInt w.now))]] ∧
      TrimSpace result.OutputText = pre ++ stored ++ post ∧
      (∀ b ∈ pre, b = quote) ∧ (∀ b ∈ post, b = quote) ∧
      stored.head? ≠ some quote ∧ stored.getLast? ≠ some quote ∧
      (∃ lead trail, result.OutputText = lead ++ TrimSpace result.OutputText ++ trail ∧
        (∀ c ∈ runes lead, IsSpace c = true) ∧ (∀ c ∈ runes trail, IsSpace c = true) ∧
        (TrimSpace result.OutputText ≠ [] →
          IsSpace (DecodeRuneInString (TrimSpace result.OutputText)).1 = false ∧
          IsSpace (DecodeLastRuneInString (TrimSpace result.OutputText)).1 = false)) ∧
      ((∀ b ∈ result.OutputText, b < 0x80) →
        ∃ lead trail, result.OutputText = lead ++ TrimSpace result.OutputText ++ trail ∧
          (∀ b ∈ lead, asciiSpace b = true) ∧ (∀ b ∈ trail, asciiSpace b = true) ∧
          (∀ b, (TrimSpace result.OutputText).head? = some b → asciiSpace b = false) ∧
          (∀ b, (TrimSpace result.OutputText).getLast? = some b → asciiSpace b = false)) := by
  obtain ⟨pre, post, h1, h2, h3, h4, h5⟩ := Trim_spec (TrimSpace result.OutputText) quote
  refine ⟨Trim (TrimSpace result.OutputText) quote, pre, post, ?_, h1, h2, h3, h4, h5,
    TrimSpace_spec result.OutputText, TrimSpace_ascii result.OutputText⟩
  have hev := addTodo_events w (Trim (TrimSpace result.OutputText) quote)
  rcases hres : addTodo w (Trim (TrimSpace result.OutputText) quote) with ⟨err, events⟩
  rw [hres] at hev
  simp only at hev
  subst hev
  cases err <;> simp [generateHandler, hPost, hm, hi, hu, hr, hres]

theorem generateHandler_trims_space_then_all_quotes_witness :
    (generateHandler (exampleWorld (goStr "  \"Buy milk.\"  ")) (request "POST" [])).2 =
      [Event.InvokeModel ⟨goStr "request", goStr "amazon.titan-text-lite-v1",
          goStr "application/json", goStr "application/json"⟩,
        Event.addTodo (goStr "Buy milk."),
        Event.PutItem (goStr "todos")
          [("Id", .S (goStr "123e4567-e89b-12d3-a456-426614174000")),
            ("Text", .S (goStr "Buy milk.")), ("CreatedAtEpoch", .N (goStr "1700000000"))]] ∧
    Event.addTodo (goStr "é") ∈
      (generateHandler (exampleWorld (goStr "\u00a0 \"é\" \u2028")) (request "POST" [])).2 ∧
    ∃ stored pre post,
      Event.addTodo stored ∈
        (generateHandler (exampleWorld (goStr "  \"Buy milk.\"  ")) (request "POST" [])).2 ∧
      TrimSpace (goStr "  \"Buy milk.\"  ") = pre ++ stored ++ post ∧
      stored.head? ≠ some quote ∧ stored.getLast? ≠ some quote :=
  ⟨by decide, by decide,
    match generateHandler_trims_space_then_all_quotes
      (exampleWorld (goStr "  \"Buy milk.\"  ")) (request "POST" []) (goStr "request")
      (goStr "response")
      ⟨20, [⟨5, goStr "  \"Buy milk.\"  ", goStr "FINISH"⟩]⟩
      ⟨5, goStr "  \"Buy milk.\"  ", goStr "FINISH"⟩ [] (by decide) rfl rfl rfl rfl with
    | ⟨stored, pre, post, h1, h2, _, _, h5, h6, _, _⟩ =>
      ⟨stored, pre, post, by rw [h1]; simp, h2, h5, h6⟩⟩

/-! ### What the two flows store -/

theorem runes_length_pos (s : GoString) (h : s ≠ []) : 1 ≤ (runes s).length := by
  cases s with
  | nil => exact absurd rfl h
  | cons b bs => simp [runes, runesFuel]

set_option maxRecDepth 100000 in
/-- C10, as stated, fails for the generate flow: the text `generateHandler` passes to
`addTodo` is empty for the model output `""`, holds the control character U+0007 for the
output `a\a`, and has 201 runes for an output of 201 letters. -/
theorem generateHandler_stores_unvalidated_text :
    Event.addTodo [] ∈ (generateHandler (exampleWorld (goStr "\"\"")) (request "POST" [])).2 ∧
    (Event.addTodo [0x61, 0x07] ∈
        (generateHandler (exampleWorld [0x61, 0x07]) (request "POST" [])).2 ∧
      0x07 ∈ runes [0x61, 0x07] ∧ (exampleWorld [0x61, 0x07]).IsPrint 0x07 = false) ∧
    (Event.addTodo (List.replicate 201 0x61) ∈
        (generateHandler (exampleWorld (List.replicate 201 0x61)) (request "POST" [])).2 ∧
      RuneCountInString (List.replicate 201 0x61) = 201) := by
  refine ⟨by decide, by decide, ?_, ?_⟩
  · decide
  · decide

/-- C10, amended to the add flow: every text `addHandler` passes to `addTodo`, and so
every todo it writes to the store, is the submitted text and has 1 to 200 runes, all of
them printable. -/
theorem addHandler_stores_valid_text (w : World) (r : Request) (text : GoString)
    (h : Event.addTodo text ∈ (addHandler w r).2) :
    text = r.FormValue "text" ∧
    1 ≤ RuneCountInString text ∧ RuneCountInString text ≤ 200 ∧
    (∀ c ∈ runes text, w.IsPrint c = true) ∧
    (∀ table item, Event.PutItem table item ∈ (addHandler w r).2 →
      item = [("Id", .S w.newUUID), ("Text", .S text), ("CreatedAtEpoch", .N (FormatInt w.now))]) := by
  by_cases hPost : r.Method = MethodPost
  · by_cases hText : r.FormValue "text" = []
    · simp [addHandler, hPost, hText] at h
    · have hmain := addHandler_post_cases w r hPost hText
      by_cases h400 : (addHandler w r).1.status = 400
      · rw [hmain.2.1 h400] at h
        simp at h
      · have hev := (hmain.2.2 h400).1
        have hcond := mt hmain.1.mpr h400
        rw [hev] at h
        simp at h
        subst h
        refine ⟨rfl, runes_length_pos _ hText, ?_, ?_, ?_⟩
        · unfold RuneCountInString
          by_contra hc
          exact hcond (Or.inl (Nat.lt_of_not_le hc))
        · intro c hc
          by_contra hp
          exact hcond (Or.inr ⟨c, hc, by simpa using hp⟩)
        · intro table item hmem
          rw [hev] at hmem
          simp at hmem
          exact hmem.2
  · simp [addHandler, hPost] at h

theorem addHandler_stores_valid_text_witness :
    Event.addTodo (goStr "Buy milk.") ∈
        (addHandler (exampleWorld []) (request "POST" [("text", goStr "Buy milk.")])).2 ∧
      RuneCountInString (goStr "Buy milk.") ≤ 200 ∧
      ∀ c ∈ runes (goStr "Buy milk."), latin1IsPrint c = true :=
  have h := addHandler_stores_valid_text (exampleWorld [])
    (request "POST" [("text", goStr "Buy milk.")]) (goStr "Buy milk.") (by decide)
  ⟨by decide, h.2.2.1, h.2.2.2.1⟩

/-! ### Listing -/

theorem getTodos_events (w : World) :
    (getTodos w).2 = [Event.getTodos, Event.Scan ⟨w.tableName, none⟩] := by
  rcases hs : w.Scan ⟨w.tableName, none⟩ with err | out
  · simp [getTodos, hs]
  · rcases hu : w.UnmarshalListOfMaps out.Items with err | todos
    · simp [getTodos, hs, hu]
    · simp [getTodos, hs, hu]

theorem getTodos_ok (w : World) (out : ScanOutput) (todos : List Todo)
    (hscan : w.Scan ⟨w.tableName, none⟩ = .ok out)
    (hdec : w.UnmarshalListOfMaps out.Items = .ok todos) :
    (getTodos w).1 =
      .ok (w.sortSlice
        (todos.map fun t => { t with CreatedAtFormatted := w.formatTime t.CreatedAtEpoch })
        fun a b => decide (a.CreatedAtEpoch > b.CreatedAtEpoch)) := by
  simp [getTodos, hscan, hdec]

theorem less_strictWeakOrder :
    StrictWeakOrder fun a b => decide (a.CreatedAtEpoch > b.CreatedAtEpoch) where
  irrefl := by intro a; simp
  trans := by
    intro a b c h1 h2
    simp only [decide_eq_true_eq] at h1 h2 ⊢
    omega
  negTrans := by
    intro a b c h1 h2
    simp only [decide_eq_false_iff_not] at h1 h2 ⊢
    omega

theorem exampleSort_contract : SortSliceContract exampleSort where
  perm := by
    intro l less
    exact List.perm_insertionSort _ l
  sorted := by
    intro l less h
    haveI : IsTotal Todo (fun a b => less b a = false) := ⟨by
      intro a b
      by_contra hc
      push_neg at hc
      have h1 : less b a = true := by simpa using hc.1
      have h2 : less a b = true := by simpa using hc.2
      have := h.trans a b a h2 h1
      rw [h.irrefl a] at this
      cases this⟩
    haveI : IsTrans Todo (fun a b => less b a = false) := ⟨by
      intro a b c h1 h2
      exact h.negTrans c b a h2 h1⟩
    exact List.sorted_insertionSort (fun a b => less b a = false) l

/-- C4: the list `getTodos` returns is a rearrangement of the decoded items, each with its
`CreatedAtFormatted` filled in and otherwise unchanged (none dropped, none duplicated),
in order of non-increasing `CreatedAtEpoch`; when the timestamps are distinct the order is
strictly descending. -/
theorem getTodos_sorted_permutation (w : World) (out : ScanOutput) (todos : List Todo)
    (hsort : SortSliceContract w.sortSlice)
    (hscan : w.Scan ⟨w.tableName, none⟩ = .ok out)
    (hdec : w.UnmarshalListOfMaps out.Items = .ok todos) :
    ∃ l, (getTodos w).1 = .ok l ∧
      l.Perm (todos.map fun t =>
        { t with CreatedAtFormatted := w.formatTime t.CreatedAtEpoch }) ∧
      l.Pairwise (fun a b => a.CreatedAtEpoch ≥ b.CreatedAtEpoch) ∧
      ((todos.map fun t => t.CreatedAtEpoch).Nodup →
        l.Pairwise (fun a b => a.CreatedAtEpoch > b.CreatedAtEpoch)) := by
  refine ⟨_, getTodos_ok w out todos hscan hdec, hsort.perm _ _, ?_, ?_⟩
  · refine (hsort.sorted _ _ less_strictWeakOrder).imp ?_
    intro a b h
    simp only [decide_eq_false_iff_not] at h
    omega
  · intro hnodup
    have hperm := hsort.perm
      (todos.map fun t => { t with CreatedAtFormatted := w.formatTime t.CreatedAtEpoch })
      fun a b => decide (a.CreatedAtEpoch > b.CreatedAtEpoch)
    have hmap : ((w.sortSlice
        (todos.map fun t => { t with CreatedAtFormatted := w.formatTime t.CreatedAtEpoch })
        fun a b => decide (a.CreatedAtEpoch > b.CreatedAtEpoch)).map
          fun t => t.CreatedAtEpoch).Nodup := by
      have h1 := hperm.map fun t : Todo => t.CreatedAtEpoch
      rw [List.map_map] at h1
      exact h1.nodup_iff.mpr hnodup
    have hne := List.pairwise_map.mp hmap
    have hge := hsort.sorted
      (todos.map fun t => { t with CreatedAtFormatted := w.formatTime t.CreatedAtEpoch })
      (fun a b => decide (a.CreatedAtEpoch > b.CreatedAtEpoch)) less_strictWeakOrder
    refine (hne.and hge).imp ?_
    intro a b h
    have h2 := h.2
    simp only [decide_eq_false_iff_not] at h2
    have h1 := h.1
    omega

theorem getTodos_sorted_permutation_witness :
    (getTodos (exampleWorld [])).1 =
        .ok [{ todoB with CreatedAtFormatted := goStr "t=1700000300" },
          { todoC with CreatedAtFormatted := goStr "t=1700000200" },
          { todoA with CreatedAtFormatted := goStr "t=1700000100" }] ∧
      ∃ l, (getTodos (exampleWorld [])).1 = .ok l ∧
        l.Pairwise (fun a b => a.CreatedAtEpoch > b.CreatedAtEpoch) :=
  ⟨rfl,
    match getTodos_sorted_permutation (exampleWorld [])
      ⟨[todoA.toItem, todoC.toItem, todoB.toItem], none⟩ [todoA, todoC, todoB]
      exampleSort_contract rfl rfl with
    | ⟨l, h1, _, _, h4⟩ => ⟨l, h1, h4 (by decide)⟩⟩

/-- C3, as stated, fails: when the backend answers the scan with the page `todoA` and a
continuation token, `getTodos` returns `todoA` alone; the scan that follows the token also
finds `todoB`, which is missing from the returned list. -/
theorem getTodos_ignores_continuation_token :
    (getTodos pagedWorld).1 = .ok [{ todoA with CreatedAtFormatted := goStr "t=1700000100" }] ∧
    scanFollowingTokens pagedWorld 2 none = .ok [todoA.toItem, todoB.toItem] ∧
    pagedWorld.UnmarshalListOfMaps [todoA.toItem, todoB.toItem] = .ok [todoA, todoB] ∧
    ∀ l, (getTodos pagedWorld).1 = .ok l → ∀ t ∈ l, t.Id ≠ todoB.Id := by
  refine ⟨rfl, rfl, rfl, ?_⟩
  intro l hl
  have h : (getTodos pagedWorld).1 =
      .ok [{ todoA with CreatedAtFormatted := goStr "t=1700000100" }] := rfl
  rw [h] at hl
  cases hl
  decide

/-- C3, amended: `getTodos` sends exactly one `Scan` request, without a start key, and
returns the todos decoded from the items of that one answer; it follows no continuation
token.  Every decoded item of that answer is in the returned list, and when the answer
carries no continuation token those items are the complete set. -/
theorem getTodos_scans_once (w : World) :
    (getTodos w).2 = [Event.getTodos, Event.Scan ⟨w.tableName, none⟩] ∧
    (∀ out todos, SortSliceContract w.sortSlice →
      w.Scan ⟨w.tableName, none⟩ = .ok out → w.UnmarshalListOfMaps out.Items = .ok todos →
      ∃ l, (getTodos w).1 = .ok l ∧
        l.Perm (todos.map fun t =>
          { t with CreatedAtFormatted := w.formatTime t.CreatedAtEpoch })) ∧
    (∀ out fuel, w.Scan ⟨w.tableName, none⟩ = .ok out → out.LastEvaluatedKey = none →
      scanFollowingTokens w (fuel + 1) none = .ok out.Items) := by
  refine ⟨getTodos_events w, ?_, ?_⟩
  · intro out todos hsort hscan hdec
    exact ⟨_, getTodos_ok w out todos hscan hdec, hsort.perm _ _⟩
  · intro out fuel hscan hkey
    simp [scanFollowingTokens, hscan, hkey]

theorem getTodos_scans_once_witness :
    (getTodos pagedWorld).2 = [Event.getTodos, Event.Scan ⟨goStr "todos", none⟩] ∧
      scanFollowingTokens (exampleWorld []) 1 none =
        .ok [todoA.toItem, todoC.toItem, todoB.toItem] :=
  ⟨(getTodos_scans_once pagedWorld).1,
    (getTodos_scans_once (exampleWorld [])).2.2
      ⟨[todoA.toItem, todoC.toItem, todoB.toItem], none⟩ 0 rfl rfl⟩

/-! ### The list page -/

theorem Execute_indexTemplate_listData (todos : List Todo) (motd : GoString) :
    Execute indexTemplate (listData todos motd) =
      (textHead ++
          ((if motd = [] then [] else textMotdOpen ++ (htmlEscape motd ++ textMotdClose)) ++
            textForms),
        some (goStr "range can't iterate over " ++ Sprint (listData todos motd))) := by
  by_cases hm : motd = []
  · simp [Execute, indexTemplate, walkList, walk, evalPipe, listData, isTrue, List.lookup, hm,
      Sprint]
  · simp [Execute, indexTemplate, walkList, walk, evalPipe, listData, isTrue, List.lookup, hm,
      Sprint]

/-- C5, where the code departs from it: for every list of todos and every message of the
day, the execution of `indexTemplate` on the struct `listHandler` passes stops with an
error at `{{range .}}`, because the dot is that struct and not its field `Todos`.  What
was written before is the head of the page, the banner if any and the two forms: no row
of the table.  `listHandler` then calls `http.Error` with status 500. -/
theorem listHandler_template_fails (todos : List Todo) (motd : GoString) :
    (Execute indexTemplate (listData todos motd)).2 =
      some (goStr "range can't iterate over " ++ Sprint (listData todos motd)) ∧
    (Execute indexTemplate (listData todos motd)).1 =
      textHead ++
        ((if motd = [] then [] else textMotdOpen ++ (htmlEscape motd ++ textMotdClose)) ++
          textForms) ∧
    ∀ (w : World) (r : Request), (getTodos w).1 = .ok todos → w.messageOfTheDay = motd →
      (listHandler w r).1 =
        .Page (Execute indexTemplate (listData todos motd)).1
          (some (goStr "failed to execute template: range can't iterate over " ++
            Sprint (listData todos motd), 500)) := by
  have hexec := Execute_indexTemplate_listData todos motd
  refine ⟨by rw [hexec], by rw [hexec], ?_⟩
  intro w r hget hmotd
  rcases hg : getTodos w with ⟨res, events⟩
  rw [hg] at hget
  simp only at hget
  subst hget
  simp only [listHandler, hg, hmotd, hexec, StatusInternalServerError]
  have : goStr "failed to execute template: " ++ (goStr "range can't iterate over " ++
      Sprint (listData todos motd)) =
      goStr "failed to execute template: range can't iterate over " ++
        Sprint (listData todos motd) := by
    rw [← List.append_assoc]
    rfl
  rw [this]

/-- C6, where the code departs from it: on the data of `TestListHandlerTemplateRendering`
(a struct with `Todos`, `MOTD` and `Prefix` "/test/") the execution of `indexTemplate`
stops with an error at `{{range .}}`, and the output holds none of `action="/test/add"`,
`action="/test/generate"` and `action="/test/delete"`: the template never reads `Prefix`,
the actions it writes are the fixed `/add` and `/generate`. -/
theorem indexTemplate_fails_repository_test :
    (Execute indexTemplate testData).2 =
      some (goStr
        "range can't iterate over \x7b[\x7b1 Test Todo 1678886400 \x7d] Test MOTD true true /test/\x7d") ∧
    ¬ goStr "action=\"/test/add\"" <:+: (Execute indexTemplate testData).1 ∧
    ¬ goStr "action=\"/test/generate\"" <:+: (Execute indexTemplate testData).1 ∧
    ¬ goStr "action=\"/test/delete\"" <:+: (Execute indexTemplate testData).1 ∧
    goStr "action=\"/add\"" <:+: (Execute indexTemplate testData).1 ∧
    goStr "action=\"/generate\"" <:+: (Execute indexTemplate testData).1 := by
  decide!

/-! ### The library models on examples -/

/-- The runes of a valid string are its scalar values, of one to four bytes each. -/
theorem runes_example_valid : runes (goStr "aé€😀") = [0x61, 0xE9, 0x20AC, 0x1F600] := by
  decide

/-- An invalid byte and a truncated encoding are each one `RuneError`. -/
theorem runes_example_invalid : runes [0x61, 0xFF, 0xC3] = [0x61, 0xFFFD, 0xFFFD] := by
  decide

/-- The function `FormatInt` on a negative number. -/
theorem FormatInt_example : FormatInt (-120) = goStr "-120" := by
  decide

/-- The function `TrimSpace` strips Unicode white space too: U+00A0 and U+2028. -/
theorem TrimSpace_example_unicode : TrimSpace (goStr "\u00a0 é \u2028") = goStr "é" := by
  decide

/-- The function `TrimSpace` keeps inner spaces. -/
theorem TrimSpace_example_inner : TrimSpace (goStr "\t Buy  milk. \r\n") = goStr "Buy  milk." := by
  decide

/-- The function `Trim` removes a quote on one side only as well. -/
theorem Trim_example_one_side : Trim (goStr "\"Buy milk.") quote = goStr "Buy milk." := by
  decide

/-- The function `ParseInt` at the two ends of the int64 range and beyond. -/
theorem ParseInt_examples :
    ParseInt (goStr "-9223372036854775808") = (-9223372036854775808, none) ∧
    ParseInt (goStr "9223372036854775807") = (9223372036854775807, none) ∧
    ParseInt (goStr "9223372036854775808") = (9223372036854775807, some .ErrRange) ∧
    ParseInt (goStr "-9223372036854775809") = (-9223372036854775808, some .ErrRange) ∧
    ParseInt (goStr "99999999999999999999999") = (9223372036854775807, some .ErrRange) ∧
    ParseInt (goStr "not-a-number") = (0, some .ErrSyn) ∧
    ParseInt (goStr "+") = (0, some .ErrSyn) ∧
    ParseInt (goStr "1_000") = (0, some .ErrSyn) ∧
    ParseInt (goStr " 12") = (0, some .ErrSyn) ∧
    ParseInt (goStr "+012") = (12, none) ∧
    ParseInt (goStr "-0") = (0, none) := by
  decide

/-- The `range` of `indexTemplate` on a slice of todos, the value it can iterate over,
writes one row for the todo, with the text escaped and the key in the hidden fields. -/
theorem walk_range_example :
    walk (.slice [Todo.toValue
        { Id := goStr "a", Text := goStr "<b>", CreatedAtEpoch := 17,
          CreatedAtFormatted := goStr "1970-01-01 00:00:17" }])
      (.Range .Dot rowNodes) =
    (textRowOpen ++ goStr "1970-01-01 00:00:17" ++ textRowText ++ goStr "&lt;b&gt;" ++
      textRowId ++ goStr "a" ++ textRowEpoch ++ goStr "17" ++ textRowClose, none) := by
  decide!

/-- On a slice of todos, which `{{range .}}` could iterate over, the template fails
earlier, at `{{if .MOTD}}`: a slice has no field `MOTD`. -/
theorem indexTemplate_on_slice :
    (Execute indexTemplate (.slice [todoA.toValue])).2 =
      some (goStr "can't evaluate field MOTD") := by
  decide!

end DynamoTodos
